import Mathlib

/-!
Verification of the Juniper configuration tooling
(`src/nodes/Juniper/util/juniper.ts` and `src/nodes/Juniper/util/jinja2.ts`):
the line-oriented parser `parseJuniperConfig`, the serializer `astToConfig`,
the structural differ `diffAst` with its `calculateSimilarity` heuristic,
the interface-table fold `addInterfaceProp`, and the template synthesizer
`convertToJinja2Ast`.

Strings are modelled as lists of characters (`Str`); JavaScript runtime
values handled by the differ are modelled by the inductive `JVal`
(strings, `null`, arrays, and insertion-ordered objects).  Recursions that
are not structural in the source (the index-juggling `parseBlock` loop and
the shape-polymorphic `diffAst`) are given an explicit fuel argument; the
wrappers instantiate the fuel with a bound that dominates the recursion
depth of the source, so the embedded functions agree with the JavaScript
functions on every input.
-/

namespace Juniper

/-- Character strings of the embedded program. -/
abbrev Str := List Char

/-- The characters matched by JavaScript's `\s` class, which is also the
set stripped by `String.prototype.trim` (WhiteSpace plus LineTerminator):
the six ASCII whitespace characters, no-break space U+00A0, the Ogham
space mark U+1680, the typographic spaces U+2000–U+200A, the line and
paragraph separators U+2028/U+2029, narrow no-break space U+202F, medium
mathematical space U+205F, ideographic space U+3000, and the byte-order
mark U+FEFF. -/
def isSpace (c : Char) : Bool :=
  c = ' ' || c = '\t' || c = '\n' || c = '\r' || c = Char.ofNat 11 || c = Char.ofNat 12 ||
  c.toNat = 0xA0 || c.toNat = 0x1680 ||
  (0x2000 ≤ c.toNat && c.toNat ≤ 0x200A) ||
  c.toNat = 0x2028 || c.toNat = 0x2029 || c.toNat = 0x202F ||
  c.toNat = 0x205F || c.toNat = 0x3000 || c.toNat = 0xFEFF

/-- JavaScript `String.prototype.trim`, left half. -/
def trimLeft (l : Str) : Str := l.dropWhile isSpace

/-- JavaScript `String.prototype.trim`, right half. -/
def trimRight (l : Str) : Str := (trimLeft l.reverse).reverse

/-- JavaScript `String.prototype.trim`. -/
def trim (l : Str) : Str := trimRight (trimLeft l)

/-- JavaScript `String.prototype.split` with a single-character separator:
`''.split` gives `['']`, separators at the ends give empty segments. -/
def splitOnChar (sep : Char) : Str → List Str
  | [] => [[]]
  | c :: cs =>
    if c = sep then [] :: splitOnChar sep cs
    else
      match splitOnChar sep cs with
      | [] => [[c]]
      | s :: ss => (c :: s) :: ss

theorem length_dropWhile_le (p : Char → Bool) (l : Str) :
    (l.dropWhile p).length ≤ l.length := by
  induction l with
  | nil => simp [List.dropWhile]
  | cons c cs ih =>
    simp only [List.dropWhile]
    split
    · exact Nat.le_succ_of_le ih
    · exact Nat.le_refl _

mutual

/-- JavaScript `str.split(/\s+/)` restricted to strings with no leading or
trailing whitespace (the source only splits strings it has just trimmed,
where the regex split produces exactly the maximal non-space runs): each
maximal non-space run becomes one token. -/
def words : Str → List Str
  | [] => []
  | c :: cs =>
    if isSpace c then words cs
    else (c :: wordTail cs) :: wordsAfter cs

/-- The rest of the current token: the longest non-space prefix. -/
def wordTail : Str → Str
  | [] => []
  | c :: cs => if isSpace c then [] else c :: wordTail cs

/-- The tokens after the current token: `words` of what follows the
longest non-space prefix. -/
def wordsAfter : Str → List Str
  | [] => []
  | c :: cs => if isSpace c then words cs else wordsAfter cs

end

/-- JavaScript `Array.prototype.join` with a one-character separator. -/
def joinSep (sep : Char) : List Str → Str
  | [] => []
  | s :: ss =>
    match ss with
    | [] => s
    | _ :: _ => s ++ sep :: joinSep sep ss

/-- Join with a single space, as in `parts.slice(1).join(' ')`. -/
def joinSp (l : List Str) : Str := joinSep ' ' l

theorem splitOnChar_ne_nil (sep : Char) (l : Str) : splitOnChar sep l ≠ [] := by
  induction l with
  | nil => simp [splitOnChar]
  | cons c cs ih =>
    simp only [splitOnChar]
    split
    · simp
    · cases h : splitOnChar sep cs <;> simp

/-- A separator occurrence splits independently on both sides. -/
theorem splitOnChar_append (sep : Char) (a b : Str) :
    splitOnChar sep (a ++ sep :: b) = splitOnChar sep a ++ splitOnChar sep b := by
  induction a with
  | nil => simp [splitOnChar]
  | cons c cs ih =>
    by_cases h : c = sep
    · subst h; simp [splitOnChar, ih]
    · cases hcs : splitOnChar sep cs with
      | nil => exact absurd hcs (splitOnChar_ne_nil sep cs)
      | cons s ss =>
        have hl : splitOnChar sep (c :: (cs ++ sep :: b))
            = (c :: s) :: (ss ++ splitOnChar sep b) := by
          simp only [splitOnChar, if_neg h, ih, hcs, List.cons_append]
        have hr : splitOnChar sep (c :: cs) = (c :: s) :: ss := by
          simp only [splitOnChar, if_neg h, hcs]
        simp only [List.cons_append, hl, hr]

theorem splitOnChar_of_not_mem (sep : Char) (a : Str) (h : sep ∉ a) :
    splitOnChar sep a = [a] := by
  induction a with
  | nil => simp [splitOnChar]
  | cons c cs ih =>
    simp only [List.mem_cons, not_or] at h
    have hc : ¬c = sep := fun he => h.1 he.symm
    simp only [splitOnChar, if_neg hc, ih h.2]

/-! ## The tree model (`JuniperNode` of `util/juniper.ts`) -/

/-- The `type` field value `'root'`. -/
def tRoot : Str := ("root").data

/-- The `type` field value `'block'`. -/
def tBlock : Str := ("block").data

/-- The `type` field value `'named-block'`. -/
def tNamedBlock : Str := ("named-block").data

/-- The `type` field value `'pattern-block'`. -/
def tPatternBlock : Str := ("pattern-block").data

/-- The `type` field value `'directive'`. -/
def tDirective : Str := ("directive").data

/-- The `type` field value `'flag'`. -/
def tFlag : Str := ("flag").data

/-- The source's `JuniperNode`: `{ type, name, value, children }` with
`name` and `value` nullable (`none` models JavaScript `null`). -/
structure JNode where
  type : Str
  name : Option Str := none
  value : Option Str := none
  children : List JNode := []

mutual

/-- Structural equality test on nodes. -/
def JNode.beq : JNode → JNode → Bool
  | ⟨t1, n1, v1, c1⟩, ⟨t2, n2, v2, c2⟩ =>
    t1 == t2 && n1 == n2 && v1 == v2 && JNode.beqList c1 c2

/-- Structural equality test on node lists. -/
def JNode.beqList : List JNode → List JNode → Bool
  | [], [] => true
  | a :: as, b :: bs => JNode.beq a b && JNode.beqList as bs
  | _, _ => false

end

mutual

theorem JNode.beq_iff : ∀ (a b : JNode), JNode.beq a b = true ↔ a = b
  | ⟨t1, n1, v1, c1⟩, ⟨t2, n2, v2, c2⟩ => by
    simp [JNode.beq, JNode.beqList_iff c1 c2, JNode.mk.injEq, and_assoc]

theorem JNode.beqList_iff : ∀ (a b : List JNode), JNode.beqList a b = true ↔ a = b
  | [], [] => by simp [JNode.beqList]
  | [], _ :: _ => by simp [JNode.beqList]
  | _ :: _, [] => by simp [JNode.beqList]
  | a :: as, b :: bs => by
    simp [JNode.beqList, JNode.beq_iff a b, JNode.beqList_iff as bs]

end

instance : DecidableEq JNode := fun a b => decidable_of_iff _ (JNode.beq_iff a b)

/-! ## Parser (`parseJuniperConfig` / `parseBlock`) -/

/-- The comment stripping `line.replace(/#.*$/, '')` of the source: on a
line (a string without a line feed, which is all the source ever passes,
since it splits on `'\n'` first) the regex removes everything from the
first `#` to the end of the line, quoted or not. -/
def stripComment (l : Str) : Str := l.takeWhile (fun c => c ≠ '#')

/-- The preprocessing of `parseJuniperConfig`: split on `'\n'`, strip
comments, trim, and discard blank lines. -/
def preprocess (config : Str) : List Str :=
  ((splitOnChar '\n' config).map (fun l => trim (stripComment l))).filter
    (fun l => !l.isEmpty)

/-- Match of the regex `^(\S+)\s+(<[^>]+>)\s+\x7b$` (the pattern-block rule
of `parseBlock`), returning the two capture groups.  Since `\S` and `\s`
are disjoint and `[^>]` cannot cross a `>`, the regex has at most one way
to match: the maximal leading non-space run, one whitespace run, a
`<...>` group up to the first `>`, one whitespace run, and a final
opening brace. -/
def patMatch (l : Str) : Option (Str × Str) :=
  let tok := l.takeWhile (fun c => !isSpace c)
  let r1 := l.dropWhile (fun c => !isSpace c)
  if tok.isEmpty then none else
  let ws1 := r1.takeWhile isSpace
  let r2 := r1.dropWhile isSpace
  if ws1.isEmpty then none else
  match r2 with
  | '<' :: r3 =>
    let w := r3.takeWhile (fun c => c ≠ '>')
    let r4 := r3.dropWhile (fun c => c ≠ '>')
    if w.isEmpty then none else
    match r4 with
    | '>' :: r5 =>
      let ws2 := r5.takeWhile isSpace
      let r6 := r5.dropWhile isSpace
      if ws2.isEmpty then none else
      if r6 = ['\x7b'] then some (tok, '<' :: (w ++ ['>'])) else none
    | _ => none
  | _ => none

/-- Match of the regex `^(.+)\s+\x7b$` (the multi-word block rule),
returning capture group 1: the regex matches exactly when the line ends
in `\x7b` preceded by at least one whitespace character preceded by at
least one character; the greedy `.+` leaves a single whitespace character
to `\s+`, so group 1 is everything up to that character. -/
def multiWordMatch (l : Str) : Option Str :=
  match l.reverse with
  | '\x7b' :: c :: c2 :: rest => if isSpace c then some ((c2 :: rest).reverse) else none
  | _ => none

/-- Match of the regex `^(.+);$` (the leaf rule), returning capture
group 1: everything before a final semicolon, nonempty. -/
def leafMatch (l : Str) : Option Str :=
  match l.reverse with
  | ';' :: c :: rest => some ((c :: rest).reverse)
  | _ => none

/-- Result of one `parseBlock` call: the children parsed for the enclosing
node, the emitted diagnostics (`console.warn` is modelled as a list of
1-based line number / line content pairs), and the returned line index. -/
structure PRes where
  children : List JNode
  diags : List (Nat × Str)
  next : Nat
deriving DecidableEq

/-- The leaf rule body of `parseBlock`: a statement containing a space
(`statement.includes(' ')`) becomes a `directive` whose value is the
remaining tokens rejoined with single spaces and with every double quote
removed; otherwise the statement is a `flag`. -/
def mkLeaf (statement : Str) : JNode :=
  if statement.contains ' ' then
    match words statement with
    | directive :: rest =>
      ⟨tDirective, some directive, some ((joinSp rest).filter (fun c => c ≠ '"')), []⟩
    | [] => ⟨tFlag, some statement, none, []⟩
  else
    ⟨tFlag, some statement, none, []⟩

/-- The body of the multi-word block rule: a single-token header gives a
`block`, a multi-token header gives a `named-block` whose value is the
remaining tokens rejoined with single spaces.  (The empty-parts case can
only arise on a line that is not trimmed, which `parseJuniperConfig`
never produces; it is mapped to a nameless `named-block`, the JavaScript
`undefined` name.) -/
def mkBlockHeader (header : Str) : Str × (List JNode → JNode) :=
  match words (trim header) with
  | [t] => (t, fun cs => ⟨tBlock, some t, none, cs⟩)
  | t :: rest => (t, fun cs => ⟨tNamedBlock, some t, some (joinSp rest), cs⟩)
  | [] => ([], fun cs => ⟨tNamedBlock, none, some [], cs⟩)

/-- Fuel-indexed embedding of `parseBlock(lines, startIndex, parent)`.
The source loop walks the line array, pushing parsed nodes onto
`parent.children` and recursing into block bodies; this embedding returns
the pushed children instead.  One unit of fuel is consumed per call; the
wrapper passes `2 * lines.length + 2`, which dominates the source's call
count (every call either consumes a line or returns). -/
def parseBF (fuel : Nat) (lines : List Str) (i : Nat) : PRes :=
  match fuel with
  | 0 => ⟨[], [], i⟩
  | fuel + 1 =>
    if h : i < lines.length then
      let line := lines.get ⟨i, h⟩
      if line = ['\x7d'] then ⟨[], [], i + 1⟩
      else
        match patMatch line with
        | some (blockType, pattern) =>
          let inner := parseBF fuel lines (i + 1)
          let rest := parseBF fuel lines inner.next
          ⟨⟨tPatternBlock, some blockType, some pattern, inner.children⟩ :: rest.children,
            inner.diags ++ rest.diags, rest.next⟩
        | none =>
          match multiWordMatch line with
          | some header =>
            let mk := mkBlockHeader header
            let inner := parseBF fuel lines (i + 1)
            let rest := parseBF fuel lines inner.next
            ⟨mk.2 inner.children :: rest.children, inner.diags ++ rest.diags, rest.next⟩
          | none =>
            match leafMatch line with
            | some grp =>
              let rest := parseBF fuel lines (i + 1)
              ⟨mkLeaf (trim grp) :: rest.children, rest.diags, rest.next⟩
            | none =>
              let rest := parseBF fuel lines (i + 1)
              ⟨rest.children, (i + 1, line) :: rest.diags, rest.next⟩
    else ⟨[], [], i⟩

/-- `parseJuniperConfig` returning the root node together with the
diagnostics the source writes with `console.warn`. -/
def parseJuniperConfigD (config : Str) : JNode × List (Nat × Str) :=
  let lines := preprocess config
  let r := parseBF (2 * lines.length + 2) lines 0
  (⟨tRoot, none, none, r.children⟩, r.diags)

/-- `parseJuniperConfig(config)`: parse a Juniper configuration string
into an AST rooted at a `root` node. -/
def parseJuniperConfig (config : Str) : JNode := (parseJuniperConfigD config).1

/-! ## Serializer (`astToConfig` / `nodeToConfig`) -/

/-- The indentation string `'    '.repeat(indent)`. -/
def indentStr (n : Nat) : Str := List.replicate (4 * n) ' '

/-- JavaScript template interpolation of a nullable string. -/
def showOpt : Option Str → Str
  | some s => s
  | none => ("null").data

mutual

/-- `nodeToConfig(node, indent)`: serialize one node at the given
indentation depth.  Children render joined by `'\n'`, indented one level
deeper; an unknown type renders the source's fallback comment line. -/
def nodeToConfig : JNode → Nat → Str
  | ⟨ty, nm, vl, cs⟩, indent =>
    if ty = tRoot then
      joinSep '\n' (nodeToConfigList cs indent)
    else if ty = tBlock then
      let childrenConfig := joinSep '\n' (nodeToConfigList cs (indent + 1))
      indentStr indent ++ showOpt nm ++ (" \x7b\n").data ++
        (if childrenConfig.isEmpty then [] else childrenConfig ++ ['\n']) ++
        indentStr indent ++ ['\x7d']
    else if ty = tNamedBlock ∨ ty = tPatternBlock then
      let childrenConfig := joinSep '\n' (nodeToConfigList cs (indent + 1))
      indentStr indent ++ showOpt nm ++ ' ' :: showOpt vl ++ (" \x7b\n").data ++
        (if childrenConfig.isEmpty then [] else childrenConfig ++ ['\n']) ++
        indentStr indent ++ ['\x7d']
    else if ty = tDirective then
      indentStr indent ++ showOpt nm ++ ' ' :: showOpt vl ++ [';']
    else if ty = tFlag then
      indentStr indent ++ showOpt nm ++ [';']
    else
      indentStr indent ++ ("# Unknown node type: ").data ++ ty

/-- The renderings of the children of one node, in order. -/
def nodeToConfigList : List JNode → Nat → List Str
  | [], _ => []
  | c :: cs, indent => nodeToConfig c indent :: nodeToConfigList cs indent

end

/-- `astToConfig(ast)`: convert an AST back to configuration text. -/
def astToConfig (ast : JNode) : Str := nodeToConfig ast 0

/-! ## JavaScript runtime values seen by the differ

`diffAst` walks arbitrary JSON-shaped values: strings, `null`, arrays and
plain objects (the AST nodes).  Objects are insertion-ordered key/value
lists with distinct keys, which is how `Object.keys` enumerates them. -/

/-- A JavaScript value handled by `diffAst` / `calculateSimilarity`. -/
inductive JVal where
  | vstr : Str → JVal
  | vnull : JVal
  | varr : List JVal → JVal
  | vobj : List (Str × JVal) → JVal

mutual

/-- Structural equality test on `JVal`. -/
def JVal.beq : JVal → JVal → Bool
  | .vstr a, .vstr b => a == b
  | .vnull, .vnull => true
  | .varr a, .varr b => JVal.beqL a b
  | .vobj a, .vobj b => JVal.beqP a b
  | _, _ => false

/-- Structural equality test on `JVal` lists. -/
def JVal.beqL : List JVal → List JVal → Bool
  | [], [] => true
  | a :: as, b :: bs => JVal.beq a b && JVal.beqL as bs
  | _, _ => false

/-- Structural equality test on key/value lists. -/
def JVal.beqP : List (Str × JVal) → List (Str × JVal) → Bool
  | [], [] => true
  | (k1, v1) :: as, (k2, v2) :: bs => k1 == k2 && JVal.beq v1 v2 && JVal.beqP as bs
  | _, _ => false

end

mutual

theorem JVal.beqVal_iff : ∀ (a b : JVal), JVal.beq a b = true ↔ a = b
  | .vstr _, .vstr _ => by simp [JVal.beq]
  | .vstr _, .vnull => by simp [JVal.beq]
  | .vstr _, .varr _ => by simp [JVal.beq]
  | .vstr _, .vobj _ => by simp [JVal.beq]
  | .vnull, .vstr _ => by simp [JVal.beq]
  | .vnull, .vnull => by simp [JVal.beq]
  | .vnull, .varr _ => by simp [JVal.beq]
  | .vnull, .vobj _ => by simp [JVal.beq]
  | .varr _, .vstr _ => by simp [JVal.beq]
  | .varr _, .vnull => by simp [JVal.beq]
  | .varr a, .varr b => by simp [JVal.beq, JVal.beqL_iff a b]
  | .varr _, .vobj _ => by simp [JVal.beq]
  | .vobj _, .vstr _ => by simp [JVal.beq]
  | .vobj _, .vnull => by simp [JVal.beq]
  | .vobj _, .varr _ => by simp [JVal.beq]
  | .vobj a, .vobj b => by simp [JVal.beq, JVal.beqP_iff a b]

theorem JVal.beqL_iff : ∀ (a b : List JVal), JVal.beqL a b = true ↔ a = b
  | [], [] => by simp [JVal.beqL]
  | [], _ :: _ => by simp [JVal.beqL]
  | _ :: _, [] => by simp [JVal.beqL]
  | a :: as, b :: bs => by
    simp [JVal.beqL, JVal.beqVal_iff a b, JVal.beqL_iff as bs]

theorem JVal.beqP_iff : ∀ (a b : List (Str × JVal)), JVal.beqP a b = true ↔ a = b
  | [], [] => by simp [JVal.beqP]
  | [], _ :: _ => by simp [JVal.beqP]
  | _ :: _, [] => by simp [JVal.beqP]
  | (k1, v1) :: as, (k2, v2) :: bs => by
    simp [JVal.beqP, JVal.beqVal_iff v1 v2, JVal.beqP_iff as bs, Prod.ext_iff, and_assoc]

end

instance : DecidableEq JVal := fun a b => decidable_of_iff _ (JVal.beqVal_iff a b)

mutual

/-- Executable structural size of a value, used as the fuel bound of the
recursions below. -/
def JVal.size : JVal → Nat
  | .vstr _ => 1
  | .vnull => 1
  | .varr l => 1 + JVal.sizeL l
  | .vobj l => 1 + JVal.sizeP l

/-- Size of a value list. -/
def JVal.sizeL : List JVal → Nat
  | [] => 0
  | a :: as => 1 + JVal.size a + JVal.sizeL as

/-- Size of a key/value list. -/
def JVal.sizeP : List (Str × JVal) → Nat
  | [] => 0
  | (_, v) :: as => 1 + JVal.size v + JVal.sizeP as

end

mutual

/-- The runtime object a `JuniperNode` is: its four properties in literal
insertion order, `null` fields as `vnull`, children as a JavaScript
array. -/
def toJVal : JNode → JVal
  | ⟨t, n, v, cs⟩ =>
    .vobj [(("type").data, .vstr t),
           (("name").data, match n with | some s => .vstr s | none => .vnull),
           (("value").data, match v with | some s => .vstr s | none => .vnull),
           (("children").data, .varr (toJValList cs))]

/-- The runtime objects of a children list. -/
def toJValList : List JNode → List JVal
  | [] => []
  | c :: cs => toJVal c :: toJValList cs

end

/-- JavaScript `typeof`: `'string'` for strings, `'object'` for `null`,
arrays and objects (the only value categories that occur here). -/
def typeofStr : JVal → Str
  | .vstr _ => ("string").data
  | _ => ("object").data

/-- JavaScript strict equality `===` as consulted by the source: it only
compares values for which at least one side is a primitive or `null`
(reference equality on two distinct live objects is never relied upon). -/
def jsStrictEq : JVal → JVal → Bool
  | .vstr a, .vstr b => a == b
  | .vnull, .vnull => true
  | _, _ => false

/-- JavaScript truthiness of a value (`''`, `null` falsy; arrays, objects
and nonempty strings truthy). -/
def jsTruthy : JVal → Bool
  | .vstr s => !s.isEmpty
  | .vnull => false
  | .varr _ => true
  | .vobj _ => true

/-- Decimal rendering of an array index, as JavaScript's number-to-string
coercion produces for `i.toString()`. -/
def natToStr (n : Nat) : Str := (Nat.repr n).data

/-- Property read `obj[prop]` (returning `none` for `undefined`): key
lookup on objects, decimal-index lookup on arrays, `undefined`
otherwise. -/
def getProp (v : JVal) (key : Str) : Option JVal :=
  match v with
  | .vobj l => l.lookup key
  | .varr l => (List.range l.length).findSome?
      (fun i => if natToStr i = key then l.get? i else none)
  | _ => none

/-- `Object.keys`: insertion-ordered keys of an object, decimal index
strings of an array, empty otherwise. -/
def jkeys : JVal → List Str
  | .vobj l => l.map Prod.fst
  | .varr l => (List.range l.length).map natToStr
  | _ => []

/-- `new Set([...Object.keys(a), ...Object.keys(b)])` iterated in
insertion order. -/
def setUnion (a b : List Str) : List Str :=
  (a ++ b).foldl (fun acc k => if acc.contains k then acc else acc ++ [k]) []

/-- The string a property value contributes when the source places it into
a path array (`nodePathComponent`); every value so used in this
development is a string. -/
def jvalDisplay : JVal → Str
  | .vstr s => s
  | .vnull => ("null").data
  | .varr _ => []
  | .vobj _ => []

/-! ## Differ (`diffAst`, `calculateSimilarity`, `DiffOptions`)

This embeds the second `diffAst` of `util/juniper.ts` (the one with the
`ignoreArrayOrder` option and the `ignoreProperties` filter), which is the
version the claims cite. -/

/-- Is the value a non-null object (array or plain object)? -/
def isObjLike : JVal → Bool
  | .varr _ => true
  | .vobj _ => true
  | _ => false

/-- `a === b` on two property reads that may be `undefined` (`none`). -/
def jsTripleEqOpt : Option JVal → Option JVal → Bool
  | none, none => true
  | some a, some b => jsStrictEq a b
  | _, _ => false

/-- The source's `DiffOptions` with its destructuring defaults:
`ignoreProperties = ['loc', 'range']`, `ignoreArrayOrder = false`,
`maxDepth = Infinity` (modelled as `none`), empty paths. -/
structure DiffOptions where
  ignoreProperties : List Str := [("loc").data, ("range").data]
  ignoreArrayOrder : Bool := false
  maxDepth : Option Nat := none
  currentPath : List Str := []
  absolutePath : List Str := []

/-- `maxDepth !== 0` (with `Infinity` as `none`). -/
def mdNe0 : Option Nat → Bool
  | none => true
  | some n => n ≠ 0

/-- `maxDepth > 0 ? maxDepth - 1 : 0` (with `Infinity` as `none`). -/
def mdDec : Option Nat → Option Nat
  | none => none
  | some 0 => some 0
  | some (n + 1) => some n

/-- A `JuniperDiff` record; absent optional fields model absent object
properties. -/
structure DiffRec where
  type : Str
  path : List Str
  absolutePath : List Str
  oldValue : Option JVal := none
  newValue : Option JVal := none
  property : Option Str := none
  nodeType : Option JVal := none
  oldType : Option Str := none
  newType : Option Str := none
deriving DecidableEq

/-- The `getNodeType` helper of `diffAst`: `typeof` for primitives and
`null`, the truthy `type` property or `'Unknown'` for objects. -/
def getNodeTypeJ (v : JVal) : JVal :=
  match v with
  | .vstr _ => .vstr (("string").data)
  | .vnull => .vstr (("object").data)
  | _ =>
    match getProp v (("type").data) with
    | some t => if jsTruthy t then t else .vstr (("Unknown").data)
    | none => .vstr (("Unknown").data)

/-- The `getAbsolutePath` helper of `diffAst`: named nodes contribute
their `name` (deduplicated against the current last component), other
values contribute the raw path segment. -/
def getAbsolutePathJ (absolutePath : List Str) (node : JVal) (seg : Str) : List Str :=
  match node with
  | .vobj _ =>
    match getProp node (("name").data) with
    | some nv =>
      if jsTruthy nv then
        let comp := jvalDisplay nv
        if absolutePath.getLast? = some comp then absolutePath else absolutePath ++ [comp]
      else absolutePath ++ [seg]
    | none => absolutePath ++ [seg]
  | _ => absolutePath ++ [seg]

/-- The priority property names of `calculateSimilarity`. -/
def keyPropNames : List Str :=
  [("id").data, ("name").data, ("value").data, ("operator").data,
   ("key").data, ("kind").data, ("computed").data]

/-- An exact rational score: an integer numerator over a positive integer
denominator, kept unnormalized.  The source computes its similarity
scores in floating point; every expression it forms is an exact small
rational and every comparison this development relies on is far from the
representation error, so exact fraction arithmetic is the faithful
model. -/
structure Score where
  num : Int
  den : Int
deriving DecidableEq

/-- Score of a natural number. -/
def Score.ofNat (n : Nat) : Score := ⟨n, 1⟩

/-- Exact fraction addition. -/
def Score.add (a b : Score) : Score := ⟨a.num * b.den + b.num * a.den, a.den * b.den⟩

/-- Exact fraction multiplication. -/
def Score.mul (a b : Score) : Score := ⟨a.num * b.num, a.den * b.den⟩

/-- Exact fraction division (only used with positive divisors). -/
def Score.div (a b : Score) : Score := ⟨a.num * b.den, a.den * b.num⟩

/-- Strict comparison by cross multiplication (valid for the positive
denominators maintained throughout). -/
def Score.bltB (a b : Score) : Bool := a.num * b.den < b.num * a.den

/-- Fuel-indexed embedding of `calculateSimilarity(nodeA, nodeB)`.  One
unit of fuel is consumed per call and the recursion descends structurally
into array elements, so the wrapper's `JVal.size nodeA + 1` always
suffices. -/
def calcSimF (fuel : Nat) (nodeA nodeB : JVal) : Score :=
  match fuel with
  | 0 => ⟨0, 1⟩
  | fuel + 1 =>
    if typeofStr nodeA ≠ typeofStr nodeB then ⟨0, 1⟩
    else if nodeA = JVal.vnull ∨ nodeB = JVal.vnull then
      (if jsStrictEq nodeA nodeB then ⟨1, 1⟩ else ⟨0, 1⟩)
    else if ¬isObjLike nodeA ∨ ¬isObjLike nodeB then
      (if jsStrictEq nodeA nodeB then ⟨1, 1⟩ else ⟨0, 1⟩)
    else if ¬jsTripleEqOpt (getProp nodeA (("type").data)) (getProp nodeB (("type").data)) then
      ⟨1, 10⟩
    else
      match nodeA, nodeB with
      | .varr la, .varr lb =>
        if la.isEmpty && lb.isEmpty then ⟨1, 1⟩
        else if la.isEmpty || lb.isEmpty then ⟨3, 10⟩
        else
          let lengthRatio : Score :=
            ⟨min la.length lb.length, max la.length lb.length⟩
          if Score.bltB lengthRatio ⟨1, 2⟩ then
            Score.add ⟨1, 5⟩ (Score.mul lengthRatio ⟨3, 10⟩)
          else
            let comparisons := min 5 (min la.length lb.length)
            let total := (List.range comparisons).foldl
              (fun acc i =>
                let indexA := i * la.length / comparisons
                let indexB := i * lb.length / comparisons
                Score.add acc (calcSimF fuel (la.getD indexA .vnull) (lb.getD indexB .vnull)))
              ⟨0, 1⟩
            Score.mul
              (Score.add ⟨1, 2⟩ (Score.mul ⟨1, 2⟩ (Score.div total (Score.ofNat comparisons))))
              lengthRatio
      | _, _ =>
        let propsA := (jkeys nodeA).filter
          (fun p => p ≠ ("loc").data ∧ p ≠ ("range").data)
        let propsB := (jkeys nodeB).filter
          (fun p => p ≠ ("loc").data ∧ p ≠ ("range").data)
        if propsA.isEmpty && propsB.isEmpty then ⟨1, 1⟩
        else if propsA.isEmpty || propsB.isEmpty then ⟨3, 10⟩
        else
          let commonProps := propsA.filter (fun p => propsB.contains p)
          let propOverlap : Score :=
            ⟨commonProps.length, max propsA.length propsB.length⟩
          let valueSimilarity : Score :=
            if commonProps.length > 0 then
              let keyProps := commonProps.filter (fun p => keyPropNames.contains p)
              let propsToCheck := if keyProps.length > 0 then keyProps else commonProps.take 3
              let vs := propsToCheck.foldl
                (fun acc p =>
                  match getProp nodeA p, getProp nodeB p with
                  | some va, some vb =>
                    if typeofStr va ≠ ("object").data ∧ typeofStr vb ≠ ("object").data then
                      Score.add acc (if jsStrictEq va vb then ⟨1, 1⟩ else ⟨0, 1⟩)
                    else if jsTruthy va && jsTruthy vb then Score.add acc ⟨1, 2⟩
                    else acc
                  | _, _ => acc) ⟨0, 1⟩
              if propsToCheck.length > 0 then Score.div vs (Score.ofNat propsToCheck.length)
              else ⟨0, 1⟩
            else ⟨0, 1⟩
          Score.add (Score.mul ⟨1, 2⟩ propOverlap) (Score.mul ⟨1, 2⟩ valueSimilarity)

/-- `calculateSimilarity(nodeA, nodeB)`. -/
def calculateSimilarity (nodeA nodeB : JVal) : Score :=
  calcSimF (JVal.size nodeA + 1) nodeA nodeB

/-- The first pass of the order-insensitive array branch: the inner
`for (j ...)` loop keeping the first strictly-best unmatched index,
starting from score `-1`. -/
def bestMatchLoop (oldNode : JVal) (news : List JVal) (matched : List Nat) : Int × Score :=
  news.enum.foldl
    (fun best jn =>
      if matched.contains jn.1 then best
      else
        let s := calculateSimilarity oldNode jn.2
        if Score.bltB best.2 s then ((jn.1 : Int), s) else best)
    (-1, ⟨-1, 1⟩)

/-- Fuel-indexed embedding of `diffAst(oldAst, newAst, options)`.  One
unit of fuel per call; every recursive call descends structurally into
the first argument, so the wrapper's `sizeOf oldAst + 1` dominates the
source's recursion depth on every input. -/
def diffAstF (fuel : Nat) (oldAst newAst : JVal) (opts : DiffOptions) : List DiffRec :=
  match fuel with
  | 0 => []
  | fuel + 1 =>
    if typeofStr oldAst ≠ typeofStr newAst then
      [{ type := ("replace").data, path := opts.currentPath,
         absolutePath := opts.absolutePath,
         oldValue := some oldAst, newValue := some newAst,
         oldType := some (typeofStr oldAst), newType := some (typeofStr newAst) }]
    else if oldAst = JVal.vnull ∨ newAst = JVal.vnull ∨
        ¬isObjLike oldAst ∨ ¬isObjLike newAst then
      if ¬jsStrictEq oldAst newAst then
        [{ type := ("replace").data, path := opts.currentPath,
           absolutePath := opts.absolutePath,
           oldValue := some oldAst, newValue := some newAst }]
      else []
    else
      match oldAst, newAst with
      | .varr la, .varr lb =>
        if opts.ignoreArrayOrder then
          let firstPass := la.enum.foldl
            (fun (st : List Nat × List DiffRec) en =>
              let i := en.1
              let oldNode := en.2
              let best := bestMatchLoop oldNode lb st.1
              if best.1 ≥ 0 ∧ Score.bltB ⟨7, 10⟩ best.2 then
                let j := best.1.toNat
                let childDiffs := diffAstF fuel oldNode (lb.getD j .vnull)
                  { opts with
                    currentPath := opts.currentPath ++ [natToStr i],
                    absolutePath := getAbsolutePathJ opts.absolutePath oldNode (natToStr i),
                    maxDepth := mdDec opts.maxDepth }
                (st.1 ++ [j], st.2 ++ childDiffs)
              else
                (st.1, st.2 ++
                  [{ type := ("remove").data,
                     path := opts.currentPath ++ [natToStr i],
                     absolutePath := getAbsolutePathJ opts.absolutePath oldNode (natToStr i),
                     oldValue := some oldNode,
                     nodeType := some (getNodeTypeJ oldNode) }]))
            ([], [])
          firstPass.2 ++ (lb.enum.filterMap
            (fun jn =>
              if firstPass.1.contains jn.1 then none
              else some
                { type := ("add").data,
                  path := opts.currentPath ++ [natToStr jn.1],
                  absolutePath := getAbsolutePathJ opts.absolutePath jn.2 (natToStr jn.1),
                  newValue := some jn.2,
                  nodeType := some (getNodeTypeJ jn.2) }))
        else
          (List.range (max la.length lb.length)).flatMap
            (fun i =>
              if i ≥ la.length then
                [{ type := ("add").data,
                   path := opts.currentPath ++ [natToStr i],
                   absolutePath := getAbsolutePathJ opts.absolutePath (lb.getD i .vnull) (natToStr i),
                   newValue := some (lb.getD i .vnull),
                   nodeType := some (getNodeTypeJ (lb.getD i .vnull)) }]
              else if i ≥ lb.length then
                [{ type := ("remove").data,
                   path := opts.currentPath ++ [natToStr i],
                   absolutePath := getAbsolutePathJ opts.absolutePath (la.getD i .vnull) (natToStr i),
                   oldValue := some (la.getD i .vnull),
                   nodeType := some (getNodeTypeJ (la.getD i .vnull)) }]
              else if mdNe0 opts.maxDepth then
                diffAstF fuel (la.getD i .vnull) (lb.getD i .vnull)
                  { opts with
                    currentPath := opts.currentPath ++ [natToStr i],
                    absolutePath := getAbsolutePathJ opts.absolutePath (la.getD i .vnull) (natToStr i),
                    maxDepth := mdDec opts.maxDepth }
              else [])
      | _, _ =>
        let allProps := setUnion (jkeys oldAst) (jkeys newAst)
        allProps.flatMap
          (fun prop =>
            if opts.ignoreProperties.contains prop then []
            else if ¬(getProp oldAst prop).isSome then
              [{ type := ("add-prop").data,
                 path := opts.currentPath ++ [prop],
                 absolutePath := opts.absolutePath ++ [prop],
                 newValue := getProp newAst prop,
                 property := some prop }]
            else if ¬(getProp newAst prop).isSome then
              [{ type := ("remove-prop").data,
                 path := opts.currentPath ++ [prop],
                 absolutePath := opts.absolutePath ++ [prop],
                 oldValue := getProp oldAst prop,
                 property := some prop }]
            else if mdNe0 opts.maxDepth then
              let nodePath :=
                if prop = ("children").data ∧ jsTruthy ((getProp oldAst (("name").data)).getD .vnull) then
                  let nameV := (getProp oldAst (("name").data)).getD .vnull
                  let valueV := (getProp oldAst (("value").data)).getD .vnull
                  let comp := jvalDisplay nameV ++
                    (if jsTruthy valueV then ' ' :: jvalDisplay valueV else [])
                  if opts.absolutePath.getLast? = some comp then opts.absolutePath
                  else opts.absolutePath ++ [comp]
                else if prop ≠ ("children").data then opts.absolutePath ++ [prop]
                else opts.absolutePath
              diffAstF fuel ((getProp oldAst prop).getD .vnull) ((getProp newAst prop).getD .vnull)
                { opts with
                  currentPath := opts.currentPath ++ [prop],
                  absolutePath := nodePath,
                  maxDepth := mdDec opts.maxDepth }
            else [])

/-- `diffAst(oldAst, newAst, options)`. -/
def diffAst (oldAst newAst : JVal) (opts : DiffOptions := {}) : List DiffRec :=
  diffAstF (JVal.size oldAst + 1) oldAst newAst opts

/-! ## Interface extractor (`addInterfaceProp`) -/

/-- Write or append one key on an insertion-ordered object, keeping the
position of an existing key, as JavaScript property assignment does. -/
def setKey (obj : List (Str × JVal)) (key : Str) (v : JVal) : List (Str × JVal) :=
  if (obj.lookup key).isSome then
    obj.map (fun kv => if kv.1 = key then (key, v) else kv)
  else obj ++ [(key, v)]

/-- `_.set(obj, segments, value)` for non-numeric path segments: walk the
segments, creating intermediate plain objects on demand and overwriting
non-object intermediates.  (Lodash would create an array instead when a
segment is a canonical integer index; no reachable call in this
development passes such a segment.) -/
def setPath (obj : List (Str × JVal)) (segs : List Str) (value : JVal) : List (Str × JVal) :=
  match segs with
  | [] => obj
  | [k] => setKey obj k value
  | k :: rest =>
    let sub := match obj.lookup k with
      | some (.vobj l) => l
      | _ => []
    setKey obj k (.vobj (setPath sub rest value))

/-- Apply `f` to the first list entry satisfying `p`, leaving the rest
unchanged (the `find`-then-mutate step of the source). -/
def setFirstMatch (p : List (Str × JVal) → Bool)
    (f : List (Str × JVal) → List (Str × JVal)) :
    List (List (Str × JVal)) → List (List (Str × JVal))
  | [] => []
  | i :: rest => if p i then f i :: rest else i :: setFirstMatch p f rest

/-- `addInterfaceProp(interfaces, path, value)`: fold one change record's
`absolutePath` into the interface table.  An interface entry is the
JavaScript object `{ name: ... , ...attributes }` modelled as an ordered
key/value list; `interfaces.find(i => i.name === interfaceName)` is the
first entry whose `name` key holds the interface name.  The `value`
parameter is the record's `oldValue`, which is present in every reachable
call.  In JavaScript the function pushes to and deep-sets into the very
array it received and returns that same array, so the returned list is
also the post-call state of the caller's `interfaces` argument. -/
def addInterfaceProp (interfaces : List (List (Str × JVal))) (path : List Str)
    (value : JVal) : List (List (Str × JVal)) :=
  if path.head? ≠ some (("interfaces").data) then interfaces
  else
    let interfaceName := path.getD 1 []
    let normalizedPath :=
      joinSep '.' ((path.enum.filter (fun p => p.1 ≠ 0 ∧ p.1 % 2 = 0)).map Prod.snd)
    let isMatch := fun (i : List (Str × JVal)) =>
      i.lookup (("name").data) == some (.vstr interfaceName)
    let withEntry :=
      if interfaces.any isMatch then interfaces
      else interfaces ++ [[((("name").data : Str), JVal.vstr interfaceName)]]
    if normalizedPath = ("name").data then withEntry
    else setFirstMatch isMatch
      (fun i => setPath i (splitOnChar '.' normalizedPath) value) withEntry

/-! ## Template synthesizer (`util/jinja2.ts`) -/

/-- A JavaScript error surfaced by the synthesizer (the `TypeError` thrown
when a property of `undefined`/`null` is dereferenced). -/
inductive JsErr where
  | typeError : JsErr
deriving DecidableEq

instance : DecidableEq (Except JsErr JNode) := fun
  | .ok a, .ok b => decidable_of_iff (a = b) (by simp)
  | .error a, .error b => decidable_of_iff (a = b) (by simp)
  | .ok _, .error _ => isFalse (fun h => Except.noConfusion h)
  | .error _, .ok _ => isFalse (fun h => Except.noConfusion h)

/-- JavaScript unary `+` on the strings that reach it here: `''` gives
`0`, a run of decimal digits gives its value, anything else gives `NaN`
(modelled as `none`). -/
def jsToNum (s : Str) : Option Nat :=
  if s.isEmpty then some 0
  else if s.all (fun c => c.isDigit) then
    some (s.foldl (fun n c => n * 10 + (c.toNat - 48)) 0)
  else none

/-- `findLoopOpportunities(diff)`: group the change records' structural
paths by the candidate container path obtained by dropping the last two
segments, reusing a previously seen key whenever it is a prefix of the
candidate; under each key record the joined path and the subgroup index
parsed from the first segment beyond the key. -/
def findLoopOpportunities (diff : List DiffRec) :
    List (Str × List (Str × Option Nat)) :=
  diff.foldl
    (fun acc r =>
      let wildcardPath := joinSep '.' (r.path.dropLast.dropLast)
      let existingKey := (acc.map Prod.fst).find?
        (fun cand => wildcardPath = cand ∨ (cand ++ ['.']).isPrefixOf wildcardPath)
      let key := existingKey.getD wildcardPath
      let existingList := ((acc.lookup key).getD [])
      let joined := joinSep '.' r.path
      let subgroup := jsToNum (((splitOnChar '.' (joined.drop (key.length + 1))).headD []))
      let entry := existingList ++ [(joined, subgroup)]
      if (acc.lookup key).isSome then
        acc.map (fun kv => if kv.1 = key then (key, entry) else kv)
      else acc ++ [(key, entry)])
    []

mutual

/-- Executable structural size of a node. -/
def JNode.size : JNode → Nat
  | ⟨_, _, _, cs⟩ => 1 + JNode.sizeList cs

/-- Executable structural size of a node list. -/
def JNode.sizeList : List JNode → Nat
  | [] => 0
  | a :: as => 1 + JNode.size a + JNode.sizeList as

end

/-- Fuel-indexed `flattenObjectReverse(obj, prefix, res)`: flatten a
nested substitution object into a reverse map from leaf value to dotted
path (later writes of the same value win, as JavaScript property
assignment does).  The leaf value is coerced to an object key; every leaf
reaching this function is a string. -/
def flattenObjectReverseF (fuel : Nat) (obj : JVal) (pre : Str)
    (res : List (Str × Str)) : List (Str × Str) :=
  match fuel with
  | 0 => res
  | fuel + 1 =>
    match obj with
    | .vobj l =>
      l.foldl
        (fun res kv =>
          let path := if pre.isEmpty then kv.1 else pre ++ '.' :: kv.1
          match kv.2 with
          | .vobj _ => flattenObjectReverseF fuel kv.2 path res
          | v => setKeyS res (jvalDisplay v) path)
        res
    | _ => res
where
  /-- Property write on a string-valued ordered object. -/
  setKeyS (res : List (Str × Str)) (key path : Str) : List (Str × Str) :=
    if (res.lookup key).isSome then
      res.map (fun kv => if kv.1 = key then (key, path) else kv)
    else res ++ [(key, path)]

/-- `flattenObjectReverse(obj)`. -/
def flattenObjectReverse (obj : JVal) : List (Str × Str) :=
  flattenObjectReverseF (JVal.size obj + 1) obj [] []

/-- `_.get(vars, path)` on a JSON-shaped value with the given path
segments. -/
def getPathJ (v : JVal) (segs : List Str) : Option JVal :=
  segs.foldlM
    (fun v seg =>
      match v with
      | .vobj l => l.lookup seg
      | .varr l =>
        match jsToNum seg with
        | some i => l.get? i
        | none => none
      | _ => none)
    v

/-- The literal `'{{' + p + '}}'` placeholder. -/
def wrapVar (p : Str) : Str := ("\x7b\x7b").data ++ p ++ ("\x7d\x7d").data

/-- Fuel-indexed `convertToLoopBody(ast, vars, reveredVariables,
currPath)` of `util/jinja2.ts`.  On a node named `interface` with a
truthy value, the value's dot-components at positions 0 and 1 are looked
up in the reverse map with an unguarded `.toString()` call, so a missing
entry raises a `TypeError`; this embedding returns `Except.error
JsErr.typeError` there.  Recursion into children extends the current
path with `'.' + child.name` (the JavaScript interpolation renders a
`null` name as the text `null`). -/
def convertToLoopBodyF (fuel : Nat) (ast : JNode) (vars : JVal)
    (rev : List (Str × Str)) (currPath : Str) : Except JsErr JNode :=
  match fuel with
  | 0 => .error .typeError
  | fuel + 1 => do
    let nameValue ←
      if ast.name == some (("interface").data) &&
          (match ast.value with | some v => !v.isEmpty | none => false) then do
        let comps ← (splitOnChar '.' (ast.value.getD [])).enum.mapM
          (fun (p : Nat × Str) =>
            if p.1 = 0 ∨ p.1 = 1 then
              match rev.lookup p.2 with
              | none => (.error .typeError : Except JsErr Str)
              | some q =>
                if p.1 = 0 ∧ q = ("interface.name").data then .ok (wrapVar q)
                else if p.1 = 1 ∧ q = ("interface.unit.name").data then .ok (wrapVar q)
                else .ok p.2
            else .ok p.2)
        pure (ast.name, some (joinSep '.' comps))
      else
        let value := getPathJ vars (splitOnChar '.' currPath)
        match value with
        | some (.vstr _) => pure (ast.name, some (wrapVar currPath))
        | _ =>
          if ¬(("interface.").data.isPrefixOf currPath) then
            let name' := match ast.name with
              | some nm =>
                if !nm.isEmpty then
                  match rev.lookup nm with
                  | some p => if !p.isEmpty then some (wrapVar p) else some nm
                  | none => some nm
                else some nm
              | none => none
            let value' := match ast.value with
              | some v =>
                if !v.isEmpty then
                  match rev.lookup v with
                  | some p => if !p.isEmpty then some (wrapVar p) else some v
                  | none => some v
                else some v
              | none => none
            pure (name', value')
          else pure (ast.name, ast.value)
    let children' ← ast.children.mapM
      (fun child =>
        convertToLoopBodyF fuel child vars rev
          (currPath ++ '.' :: showOpt child.name))
    pure ⟨ast.type, nameValue.1, nameValue.2, children'⟩

/-- `convertToLoopBody(ast, vars, reveredVariables, currPath)`. -/
def convertToLoopBody (ast : JNode) (vars : JVal) (rev : List (Str × Str))
    (currPath : Str) : Except JsErr JNode :=
  convertToLoopBodyF (JNode.size ast + 1) ast vars rev currPath

/-- An intermediate value reached by a lodash path walk over the tree. -/
inductive NdVal where
  | nd : JNode → NdVal
  | lst : List JNode → NdVal
  | st : Option Str → NdVal

/-- One lodash path step on the tree: field names address node fields,
decimal indices address list elements. -/
def getSegNd : NdVal → Str → Option NdVal
  | .nd n, seg =>
    if seg = ("children").data then some (.lst n.children)
    else if seg = ("name").data then some (.st n.name)
    else if seg = ("value").data then some (.st n.value)
    else if seg = ("type").data then some (.st (some n.type))
    else none
  | .lst l, seg =>
    (match jsToNum seg with
     | some i => (l.get? i).map .nd
     | none => none)
  | .st _, _ => none

/-- `_.get(tree, segments)` over the tree. -/
def getPathNd (n : JNode) (segs : List Str) : Option NdVal :=
  segs.foldlM getSegNd (.nd n)

/-- `_.set(tree, segments, list)` for the reachable path shapes, which
always address a `children` array through alternating `children` /
index segments. -/
def setPathNd (n : JNode) (segs : List Str) (repl : List JNode) : Option JNode :=
  match segs with
  | [] => none
  | [seg] =>
    if seg = ("children").data then some ⟨n.type, n.name, n.value, repl⟩ else none
  | seg :: idx :: rest =>
    if seg = ("children").data then
      match jsToNum idx with
      | some i =>
        match n.children.get? i with
        | some child =>
          match setPathNd child rest repl with
          | some child' => some ⟨n.type, n.name, n.value, n.children.set i child'⟩
          | none => none
        | none => none
      | none => none
    else none

/-- The loop-opening marker node name. -/
def loopOpenMarker : Str := ("\x7b% for interface in interface.physical %\x7d").data

/-- The loop-closing marker node name. -/
def loopCloseMarker : Str := ("\x7b% endfor %\x7d").data

/-- The per-group array rewrite of `convertToJinja2Ast`: the
`original.reduce(...)` that walks the live array and splices
`[open marker, loop body, close marker]` at the representative's index,
keeps elements at indices outside `subgroups`, and drops the other
subgroup elements. -/
def spliceLoop (original : List JNode) (subgroups : List (Option Nat))
    (body : JNode) : List JNode :=
  original.enum.foldl
    (fun acc2 en =>
      if subgroups.headD none = some en.1 then
        acc2 ++ [⟨tFlag, some loopOpenMarker, none, []⟩, body,
                 ⟨tFlag, some loopCloseMarker, none, []⟩]
      else if ¬(subgroups.contains (some en.1) = true) then acc2 ++ [en.2]
      else acc2)
    []

/-- Remove duplicates keeping first occurrences, as
`[...new Set(list)]` does (`NaN` values collapse together under the
set's SameValueZero equality, matching `Option.none` here). -/
def dedupFirst (l : List (Option Nat)) : List (Option Nat) :=
  l.foldl (fun acc k => if acc.contains k then acc else acc ++ [k]) []

/-- `convertToJinja2Ast(ast, diff, vars)` of
`src/nodes/Juniper/util/jinja2.ts`: deep-copy the tree (the embedding's
values are immutable, so the copy is the value itself), then for every
loop group locate the live array at the group's path, build the loop body
from the representative element, and splice the rewritten array back.
The dereferences the source performs without guards (`.name` of the
parent lookup, `.reduce` of the array lookup, the reverse-map lookup
inside `convertToLoopBody`) surface as `JsErr.typeError`. -/
def convertToJinja2Ast (ast : JNode) (diff : List DiffRec) (vars : JVal) :
    Except JsErr JNode :=
  (findLoopOpportunities diff).foldlM
    (fun acc group => do
      let loopPath := group.1
      let subgroups := dedupFirst (group.2.map Prod.snd)
      let parentSegs := (splitOnChar '.' loopPath).dropLast
      let parent ←
        match getPathNd acc parentSegs with
        | some (.nd p) => .ok p
        | _ => .error JsErr.typeError
      let parentName ←
        match parent.name with
        | some nm => .ok nm
        | none => .error JsErr.typeError
      let currPath := replaceFirst parentName (("interfaces").data) (("interface").data)
      let original ←
        match getPathNd acc (splitOnChar '.' loopPath) with
        | some (.lst l) => .ok l
        | _ => .error JsErr.typeError
      let body ←
        match subgroups.headD none with
        | some i =>
          match original.get? i with
          | some rep => convertToLoopBody rep vars (flattenObjectReverse vars) currPath
          | none => .ok ⟨tRoot, none, none, []⟩
        | none => .ok ⟨tRoot, none, none, []⟩
      let newList := spliceLoop original subgroups body
      match setPathNd acc (splitOnChar '.' loopPath) newList with
      | some acc' => .ok acc'
      | none => .error JsErr.typeError)
    ast
where
  /-- `String.prototype.replace` with a plain-string pattern: replace the
  first occurrence. -/
  replaceFirst (s pat repl : Str) : Str :=
    match s with
    | [] => if pat.isEmpty then repl else []
    | c :: cs => if pat.isPrefixOf s then repl ++ s.drop pat.length
                 else c :: replaceFirst cs pat repl

/-! ## Canonical trees for the parser/serializer round trip -/

/-- A single parser token: nonempty, no whitespace (so it survives
trimming and word splitting intact and cannot contain a line feed), and
no `#` (so it survives comment stripping). -/
def tokOK (s : Str) : Bool :=
  !s.isEmpty && s.all (fun c => !isSpace c && c ≠ '#')

/-- A canonical directive / named-block value: a nonempty sequence of
tokens joined by single spaces (the form the parser itself produces by
rejoining split words), free of double quotes (which the parser strips)
and of `#`. -/
def valOK (s : Str) : Bool :=
  !(words s).isEmpty && (s == joinSp (words s)) &&
    s.all (fun c => c ≠ '"' && c ≠ '#')

/-- The inner text of a pattern-block pattern `<...>`: nonempty, no `>`
(the regex class `[^>]+`), no line feed, no `#`. -/
def patOK (s : Str) : Bool :=
  !s.isEmpty && s.all (fun c => c ≠ '>' && c ≠ '\n' && c ≠ '#')

/-- A pattern-block value: `'<'`, a `patOK` body, `'>'`. -/
def patValOK (v : Str) : Bool :=
  match v with
  | c :: rest =>
    c = '<' && (match rest.reverse with
      | c2 :: wrev => c2 = '>' && patOK wrev.reverse
      | [] => false)
  | [] => false

mutual

/-- Well-formed parser output below the root: the five node kinds with
canonical tokens; named-block headers must not collide with the
pattern-block rule, which is tried first. -/
def wfNode : JNode → Bool
  | ⟨ty, nm, vl, cs⟩ =>
    (ty == tFlag && (match nm, vl, cs with
        | some s, none, [] => tokOK s
        | _, _, _ => false)) ||
    (ty == tDirective && (match nm, vl, cs with
        | some s, some v, [] => tokOK s && valOK v
        | _, _, _ => false)) ||
    (ty == tBlock && (match nm, vl with
        | some s, none => tokOK s && wfList cs
        | _, _ => false)) ||
    (ty == tNamedBlock && (match nm, vl with
        | some s, some v => tokOK s && valOK v &&
            (patMatch (s ++ ' ' :: v ++ [' ', '\x7b'])).isNone && wfList cs
        | _, _ => false)) ||
    (ty == tPatternBlock && (match nm, vl with
        | some s, some v => tokOK s && patValOK v && wfList cs
        | _, _ => false))

/-- Well-formed forests: every node well-formed. -/
def wfList : List JNode → Bool
  | [] => true
  | n :: ns => wfNode n && wfList ns

end

mutual

/-- The trimmed text lines a well-formed node serializes to (and that the
parser reads back): header and closing brace around the children for the
block kinds, a single line for the leaf kinds. -/
def canonNode : JNode → List Str
  | ⟨ty, nm, vl, cs⟩ =>
    if ty = tBlock then
      (showOpt nm ++ [' ', '\x7b']) :: (canonForest cs ++ [['\x7d']])
    else if ty = tNamedBlock ∨ ty = tPatternBlock then
      (showOpt nm ++ ' ' :: showOpt vl ++ [' ', '\x7b']) ::
        (canonForest cs ++ [['\x7d']])
    else if ty = tDirective then
      [showOpt nm ++ ' ' :: showOpt vl ++ [';']]
    else
      [showOpt nm ++ [';']]

/-- The concatenated canonical lines of a forest. -/
def canonForest : List JNode → List Str
  | [] => []
  | n :: ns => canonNode n ++ canonForest ns

end

/-- What `preprocess` does to each raw line: strip the comment, trim. -/
def processLine (l : Str) : Str := trim (stripComment l)

/-! ## Claim C3: the diff scenario -/

/-- The first compared configuration of the diff scenario. -/
def c3Old : Str := ("unit 0 \x7b\n    family inet;\n\x7d").data

/-- The second compared configuration of the diff scenario. -/
def c3New : Str := ("unit 0 \x7b\n    family inet6;\n\x7d").data

/-- The diff of the two parses under default options. -/
def c3Diff : List DiffRec :=
  diffAst (toJVal (parseJuniperConfig c3Old)) (toJVal (parseJuniperConfig c3New))

/-- C3, counterexample: diffing the parses of `unit 0 { family inet; }` and
`unit 0 { family inet6; }` under default options yields exactly one record,
but its `semanticPath` (the `absolutePath` field) ends in the property
segment `value`, not in `family` as the claim states. -/
theorem c3_counterexample :
    c3Diff.length = 1 ∧
      ∀ r ∈ c3Diff,
        r.absolutePath.getLast? = some (("value").data) ∧
          ¬r.absolutePath.getLast? = some (("family").data) := by decide

/-- C3, amended: the diff is exactly one `replace` record with
`oldValue = "inet"`, `newValue = "inet6"`, whose `semanticPath` ends in
the two segments `family`, `value` (the `family` node's name followed by
the `value` property key). -/
theorem c3_amended :
    c3Diff = [{
      type := ("replace").data,
      path := [("children").data, ("0").data, ("children").data, ("0").data,
               ("value").data],
      absolutePath := [("unit").data, ("unit 0").data, ("family").data,
                       ("value").data],
      oldValue := some (.vstr (("inet").data)),
      newValue := some (.vstr (("inet6").data)) }] := by decide

/-! ## Claim C4: the interface-extraction scenario -/

/-- The `semanticPath` of the interface-extraction scenario. -/
def c4Path : List Str :=
  [("interfaces").data, ("ge-0/0/0").data, ("unit").data, ("0").data,
   ("family").data]

/-- The table produced by folding the scenario's single record into an
empty table. -/
def c4Table : List (List (Str × JVal)) :=
  addInterfaceProp [] c4Path (.vstr (("inet").data))

/-- C4, counterexample: folding the scenario's `replace` record produces a
single entry, but that entry does not carry the dotted attribute path
`unit.0.family`: the positional segment `0` sits at an odd raw index and
is dropped, so the lookup of `unit.0.family` finds nothing. -/
theorem c4_counterexample :
    c4Table.length = 1 ∧
      ∀ e ∈ c4Table,
        getPathJ (.vobj e) [("unit").data, ("0").data, ("family").data] = none := by
  decide

/-- C4, amended: the fold produces the table with the single key
`ge-0/0/0` whose entry has the dotted attribute path `unit.family` (the
segments at the even raw indices 2 and 4, the index-0 segment
`interfaces` excluded) set to `"inet"`. -/
theorem c4_amended :
    c4Table = [[((("name").data : Str), JVal.vstr (("ge-0/0/0").data)),
                ((("unit").data : Str),
                 JVal.vobj [((("family").data : Str), JVal.vstr (("inet").data))])]] := by
  decide

/-! ## Claim C6: comment stripping and quoted strings -/

/-- C8, counterexample: `addInterfaceProp` does not leave the array it
receives unchanged.  The source pushes the new entry onto the very array
it received and returns that same array, so the caller's `interfaces`
argument after the call holds the returned list — which differs from the
empty array that was passed in. -/
theorem c8_counterexample :
    addInterfaceProp [] c4Path (.vstr (("inet").data)) ≠ [] := by decide

/-- C8, amended: `addInterfaceProp` grows the array it receives (and
returns the same, mutated, array): whenever the record is relevant and
names an interface that is not yet in the table, the post-call state of
the array is the input with exactly one entry appended. -/
theorem setFirstMatch_append_of_none (p : List (Str × JVal) → Bool)
    (f : List (Str × JVal) → List (Str × JVal))
    (l tail : List (List (Str × JVal))) (h : ∀ i ∈ l, p i = false) :
    setFirstMatch p f (l ++ tail) = l ++ setFirstMatch p f tail := by
  induction l with
  | nil => rfl
  | cons i rest ih =>
    simp only [List.cons_append, setFirstMatch,
      h i (List.mem_cons_self i rest), Bool.false_eq_true, if_false]
    rw [List.append_eq, ih (fun j hj => h j (List.mem_cons_of_mem i hj))]

theorem c8_amended (interfaces : List (List (Str × JVal))) (path : List Str)
    (value : JVal)
    (h1 : path.head? = some (("interfaces").data))
    (h2 : ∀ i ∈ interfaces,
      i.lookup (("name").data) ≠ some (.vstr (path.getD 1 []))) :
    ∃ entry, addInterfaceProp interfaces path value = interfaces ++ [entry] := by
  have hmatch : ∀ i ∈ interfaces,
      (i.lookup (("name").data) == some (JVal.vstr (path.getD 1 []))) = false := by
    intro i hi
    exact beq_eq_false_iff_ne.mpr (h2 i hi)
  have hany : interfaces.any
      (fun i => i.lookup (("name").data) == some (JVal.vstr (path.getD 1 []))) = false := by
    rw [List.any_eq_false]
    intro i hi
    simp only [beq_iff_eq]
    exact h2 i hi
  simp only [addInterfaceProp, h1]
  rw [if_neg (by simp)]
  simp only [hany, Bool.false_eq_true, if_false]
  by_cases hn : joinSep '.'
      ((path.enum.filter (fun p => p.1 ≠ 0 ∧ p.1 % 2 = 0)).map Prod.snd) = ("name").data
  · rw [if_pos hn]
    exact ⟨_, rfl⟩
  · rw [if_neg hn, setFirstMatch_append_of_none _ _ _ _ hmatch]
    refine ⟨setPath [((("name").data : Str), JVal.vstr (path.getD 1 []))]
      (splitOnChar '.' (joinSep '.'
        ((path.enum.filter (fun p => p.1 ≠ 0 ∧ p.1 % 2 = 0)).map Prod.snd))) value, ?_⟩
    simp [setFirstMatch, List.lookup]

/-- C8, witness for the amended theorem: folding the scenario record into
an empty table appends one entry. -/
theorem c8_amended_witness :
    ∃ entry, addInterfaceProp [] c4Path (.vstr (("inet").data)) = [] ++ [entry] :=
  c8_amended [] c4Path (.vstr (("inet").data)) (by decide) (by simp)

/-! ## Claim C10: the unguarded reverse lookup of the synthesizer -/

/-- A tree whose loop representative is a `directive` named `interface`. -/
def c10Ast : JNode :=
  ⟨tRoot, none, none, [⟨tBlock, some (("interfaces").data), none,
    [⟨tDirective, some (("interface").data), some (("foo.bar").data), []⟩]⟩]⟩

/-- A change list addressing the representative's `value`. -/
def c10Diff : List DiffRec := [{
  type := ("replace").data,
  path := [("children").data, ("0").data, ("children").data, ("0").data,
           ("value").data],
  absolutePath := [] }]

/-- C10: the synthesizer is not total.  When the loop representative
contains a node named `interface` whose value's first dot-component is
not a leaf value of the substitution table, `convertToLoopBody`
dereferences the missing reverse-lookup entry (`.toString()` on
`undefined`) and the whole synthesis throws a `TypeError`: here with the
empty substitution table, both the helper and `convertToJinja2Ast`
surface the error. -/
theorem c10_missing_substitution_throws :
    convertToLoopBody ⟨tDirective, some (("interface").data), some (("foo").data), []⟩
        (.vobj []) [] (("interface").data) = .error .typeError ∧
      convertToJinja2Ast c10Ast c10Diff (.vobj []) = .error .typeError := by decide


/-! ## Claim C2: diff identity -/

theorem flatMap_nil_of_forall {α β : Type} (l : List α) (f : α → List β)
    (h : ∀ x ∈ l, f x = []) : l.flatMap f = [] := by
  induction l with
  | nil => rfl
  | cons a as ih =>
    simp only [List.flatMap_cons, h a (List.mem_cons_self a as), List.nil_append]
    exact ih (fun x hx => h x (List.mem_cons_of_mem a hx))

theorem mem_foldl_insertUnique (l : List Str) (acc : List Str) (x : Str)
    (h : x ∈ l.foldl (fun acc k => if acc.contains k then acc else acc ++ [k]) acc) :
    x ∈ acc ∨ x ∈ l := by
  induction l generalizing acc with
  | nil => exact Or.inl h
  | cons a as ih =>
    simp only [List.foldl_cons] at h
    rcases ih _ h with h2 | h2
    · by_cases hc : acc.contains a
      · rw [if_pos hc] at h2
        exact Or.inl h2
      · rw [if_neg hc] at h2
        rcases List.mem_append.mp h2 with h3 | h3
        · exact Or.inl h3
        · simp only [List.mem_singleton] at h3
          exact Or.inr (h3 ▸ List.mem_cons_self a as)
    · exact Or.inr (List.mem_cons_of_mem a h2)

theorem mem_setUnion (a b : List Str) (x : Str) (h : x ∈ setUnion a b) :
    x ∈ a ∨ x ∈ b := by
  rcases mem_foldl_insertUnique (a ++ b) [] x h with h2 | h2
  · exact absurd h2 (List.not_mem_nil x)
  · exact List.mem_append.mp h2

theorem lookup_isSome_of_mem_keys (l : List (Str × JVal)) (k : Str)
    (h : k ∈ l.map Prod.fst) : (l.lookup k).isSome = true := by
  induction l with
  | nil => simp at h
  | cons p ps ih =>
    simp only [List.map_cons, List.mem_cons] at h
    rcases h with h | h
    · simp [List.lookup, h]
    · by_cases hk : k = p.1
      · simp [List.lookup, hk]
      · have hb : (k == p.1) = false := beq_eq_false_iff_ne.mpr hk
        simp only [List.lookup, hb]
        exact ih h

/-- Diffing any value against itself yields no records whenever the
order-significant array policy is in force (the recursion preserves that
policy), independent of the remaining options and of the fuel. -/
theorem diffAstF_self (fuel : Nat) : ∀ (v : JVal) (opts : DiffOptions),
    opts.ignoreArrayOrder = false → diffAstF fuel v v opts = [] := by
  induction fuel with
  | zero => intro v opts _; rfl
  | succ fuel ih =>
    intro v opts h
    cases v with
    | vstr s =>
      simp only [diffAstF]
      rw [if_neg (by simp)]
      rw [if_pos (by simp [isObjLike])]
      simp [jsStrictEq]
    | vnull =>
      simp only [diffAstF]
      rw [if_neg (by simp)]
      rw [if_pos (by simp [isObjLike])]
      simp [jsStrictEq]
    | varr l =>
      simp only [diffAstF, typeofStr]
      rw [if_neg (by simp)]
      rw [if_neg (by simp [isObjLike])]
      simp only [h, Bool.false_eq_true, if_false]
      apply flatMap_nil_of_forall
      intro i hi
      have hlt : i < l.length := by
        simpa using List.mem_range.mp (by simpa [Nat.max_self] using hi)
      rw [if_neg (by omega)]
      rw [if_neg (by omega)]
      split
      · exact ih _ _ (by simp [h])
      · rfl
    | vobj l =>
      simp only [diffAstF, typeofStr]
      rw [if_neg (by simp)]
      rw [if_neg (by simp [isObjLike])]
      apply flatMap_nil_of_forall
      intro prop hprop
      have hkey : prop ∈ l.map Prod.fst := by
        rcases mem_setUnion _ _ _ hprop with h2 | h2 <;> exact h2
      have hsome : (getProp (.vobj l) prop).isSome = true :=
        lookup_isSome_of_mem_keys l prop hkey
      simp only [not_not_intro hsome, not_false_eq_true, not_true_eq_false,
        Bool.false_eq_true, if_false, ite_false]
      split
      · rfl
      · split
        · exact ih _ _ (by simp [h])
        · rfl

/-- C2: diff identity — for every tree `x`, `diffAst(x, x)` under default
options returns the empty change list. -/
theorem c2_diff_identity (x : JNode) : diffAst (toJVal x) (toJVal x) {} = [] :=
  diffAstF_self _ _ _ rfl


/-! ## Claim C5: the loop-group splice -/

/-- The tree of the splice counterexample: the `interfaces` block holds a
flag (index 0, untouched) and a directive (index 1, the changed
element). -/
def c5Ast : JNode :=
  ⟨tRoot, none, none, [⟨tBlock, some (("interfaces").data), none,
    [⟨tFlag, some (("aaa").data), none, []⟩,
     ⟨tDirective, some (("x").data), some (("v").data), []⟩]⟩]⟩

/-- A change list whose only record addresses the element at index 1. -/
def c5Diff : List DiffRec := [{
  type := ("replace").data,
  path := [("children").data, ("0").data, ("children").data, ("1").data,
           ("value").data],
  absolutePath := [] }]

/-- C5, counterexample: for this loop group (representative index 1, index
0 not a subgroup) the rewritten array does not start with the loop-open
marker: the untouched sibling at index 0 precedes it, because the source
splices the markers at the representative's position rather than at the
head of the array. -/
theorem c5_counterexample :
    convertToJinja2Ast c5Ast c5Diff (.vobj []) = .ok ⟨tRoot, none, none,
      [⟨tBlock, some (("interfaces").data), none,
        [⟨tFlag, some (("aaa").data), none, []⟩,
         ⟨tFlag, some loopOpenMarker, none, []⟩,
         ⟨tDirective, some (("x").data), some (("v").data), []⟩,
         ⟨tFlag, some loopCloseMarker, none, []⟩]⟩]⟩ := by decide

/-- The elements of an enumerated slice that survive the splice: those
whose original index is not a subgroup index. -/
def spliceKept (l : List (Nat × JNode)) (subgroups : List (Option Nat)) : List JNode :=
  l.filterMap (fun en => if subgroups.contains (some en.1) then none else some en.2)

/-- The per-element contribution of the splice fold. -/
def spliceStep (subgroups : List (Option Nat)) (body : JNode) (en : Nat × JNode) :
    List JNode :=
  if subgroups.headD none = some en.1 then
    [⟨tFlag, some loopOpenMarker, none, []⟩, body,
     ⟨tFlag, some loopCloseMarker, none, []⟩]
  else if ¬(subgroups.contains (some en.1) = true) then [en.2] else []

theorem flatMap_congr_mem {α β : Type} (l : List α) (f g : α → List β)
    (h : ∀ x ∈ l, f x = g x) : l.flatMap f = l.flatMap g := by
  induction l with
  | nil => rfl
  | cons a as ih =>
    simp only [List.flatMap_cons, h a (List.mem_cons_self a as)]
    rw [ih (fun x hx => h x (List.mem_cons_of_mem a hx))]

theorem spliceLoop_eq_flatMap (original : List JNode) (subgroups : List (Option Nat))
    (body : JNode) :
    spliceLoop original subgroups body =
      original.enum.flatMap (spliceStep subgroups body) := by
  suffices hgen : ∀ (l : List (Nat × JNode)) (acc : List JNode),
      l.foldl
        (fun acc2 en =>
          if subgroups.headD none = some en.1 then
            acc2 ++ [⟨tFlag, some loopOpenMarker, none, []⟩, body,
                     ⟨tFlag, some loopCloseMarker, none, []⟩]
          else if ¬(subgroups.contains (some en.1) = true) then acc2 ++ [en.2] else acc2)
        acc = acc ++ l.flatMap (spliceStep subgroups body) by
    unfold spliceLoop
    exact hgen original.enum []
  intro l
  induction l with
  | nil => intro acc; simp
  | cons en rest ih =>
    intro acc
    simp only [List.foldl_cons, List.flatMap_cons, ih]
    unfold spliceStep
    split
    · simp
    · split
      · simp
      · simp

theorem flatMap_if_eq_spliceKept (l : List (Nat × JNode)) (subgroups : List (Option Nat)) :
    (l.flatMap (fun en =>
        if ¬(subgroups.contains (some en.1) = true) then [en.2] else [])) =
      spliceKept l subgroups := by
  induction l with
  | nil => rfl
  | cons en rest ih =>
    simp only [List.flatMap_cons, spliceKept, List.filterMap_cons]
    by_cases hc : subgroups.contains (some en.1) = true
    · simp only [hc, not_true_eq_false, if_false, if_true, List.nil_append]
      simpa [spliceKept] using ih
    · simp only [hc, not_false_eq_true, if_true, Bool.false_eq_true, if_false]
      simpa [spliceKept] using ih

/-- C5, amended: for every loop group the synthesizer splices the
sequence loop-open marker, rewritten representative, loop-close marker at
the representative's own position in the array: the result is the
non-subgroup siblings before the representative, then the three-part
splice, then the non-subgroup siblings after it (other subgroup elements
are dropped).  The sequence therefore starts with the open marker only
when no untouched sibling precedes the representative. -/
theorem c5_amended (original : List JNode) (subgroups : List (Option Nat))
    (body : JNode) (rep : Nat)
    (h1 : subgroups.headD none = some rep) (h2 : rep < original.length) :
    spliceLoop original subgroups body =
      spliceKept (original.enum.take rep) subgroups
        ++ [⟨tFlag, some loopOpenMarker, none, []⟩, body,
            ⟨tFlag, some loopCloseMarker, none, []⟩]
        ++ spliceKept (original.enum.drop (rep + 1)) subgroups := by
  have hlen : original.enum.length = original.length := List.enum_length
  have hsplit : original.enum =
      original.enum.take rep ++ (rep, original.get ⟨rep, h2⟩) :: original.enum.drop (rep + 1) := by
    conv_lhs => rw [← List.take_append_drop rep original.enum]
    congr 1
    rw [List.drop_eq_getElem_cons (by omega)]
    congr 1
    simp [List.getElem_enum]
  have htake : ∀ en ∈ original.enum.take rep, en.1 ≠ rep := by
    intro en hen
    rcases List.mem_iff_getElem.mp hen with ⟨i, hi, hgi⟩
    have hir : i < rep := by
      have h3 := hi
      simp only [List.length_take, hlen] at h3
      omega
    rw [List.getElem_take] at hgi
    rw [← hgi]
    simp only [List.getElem_enum]
    omega
  have hdrop : ∀ en ∈ original.enum.drop (rep + 1), en.1 ≠ rep := by
    intro en hen
    rcases List.mem_iff_getElem.mp hen with ⟨i, hi, hgi⟩
    rw [List.getElem_drop] at hgi
    rw [← hgi]
    simp only [List.getElem_enum]
    omega
  have hne : ∀ (l : List (Nat × JNode)), (∀ en ∈ l, en.1 ≠ rep) →
      l.flatMap (spliceStep subgroups body) = spliceKept l subgroups := by
    intro l hl
    rw [← flatMap_if_eq_spliceKept l subgroups]
    apply flatMap_congr_mem
    intro en hen
    unfold spliceStep
    rw [if_neg]
    rw [h1]
    intro hcon
    exact hl en hen (Option.some_injective _ hcon).symm
  have hmid : spliceStep subgroups body (rep, original.get ⟨rep, h2⟩) =
      [⟨tFlag, some loopOpenMarker, none, []⟩, body,
       ⟨tFlag, some loopCloseMarker, none, []⟩] := by
    unfold spliceStep
    rw [if_pos h1]
  rw [spliceLoop_eq_flatMap]
  conv_lhs => rw [hsplit]
  rw [List.flatMap_append, List.flatMap_cons, hne _ htake, hne _ hdrop, hmid]
  simp [List.append_assoc]

/-- C5, witness for the amended theorem: a two-element array with
representative index 1 splices into sibling zero, the marker triple, and
nothing after. -/
theorem c5_amended_witness :
    spliceLoop [⟨tFlag, some (("aaa").data), none, []⟩,
                ⟨tDirective, some (("x").data), some (("v").data), []⟩]
        [some 1] ⟨tFlag, none, none, []⟩ =
      spliceKept (([⟨tFlag, some (("aaa").data), none, []⟩,
                    ⟨tDirective, some (("x").data), some (("v").data), []⟩] :
                    List JNode).enum.take 1) [some 1]
        ++ [⟨tFlag, some loopOpenMarker, none, []⟩, ⟨tFlag, none, none, []⟩,
            ⟨tFlag, some loopCloseMarker, none, []⟩]
        ++ spliceKept (([⟨tFlag, some (("aaa").data), none, []⟩,
                         ⟨tDirective, some (("x").data), some (("v").data), []⟩] :
                         List JNode).enum.drop 2) [some 1] :=
  c5_amended _ [some 1] ⟨tFlag, none, none, []⟩ 1 (by decide) (by decide)


/-! ## Claim C7: unparseable lines become diagnostics and parsing continues -/

/-- A preprocessed line that matches none of the grammar rules of
`parseBlock`: not a closing brace, no pattern-block match, no multi-word
block match, no leaf match. -/
def unparseableLine (l : Str) : Bool :=
  !(l == ['\x7d']) && (patMatch l).isNone && (multiWordMatch l).isNone &&
    (leafMatch l).isNone

theorem getD_eq_get_of_lt (lines : List Str) (i : Nat) (h : i < lines.length) :
    lines.getD i [] = lines.get ⟨i, h⟩ := by
  simp [List.getD_eq_getElem?_getD, List.getElem?_eq_getElem h]

/-- Every diagnostic `parseBlock` emits carries the 1-based index of a
line (within the preprocessed line array) that matches none of the
grammar rules, together with that line's content. -/
theorem parseBF_diags_sound (lines : List Str) :
    ∀ (fuel i : Nat), ∀ d ∈ (parseBF fuel lines i).diags,
      ∃ j, j < lines.length ∧ d = (j + 1, lines.getD j []) ∧
        unparseableLine (lines.getD j []) = true := by
  intro fuel
  induction fuel with
  | zero => intro i d hd; simp [parseBF] at hd
  | succ fuel ih =>
    intro i d hd
    rw [parseBF] at hd
    by_cases h : i < lines.length
    · rw [dif_pos h] at hd
      by_cases hclose : lines.get ⟨i, h⟩ = ['\x7d']
      · rw [if_pos hclose] at hd
        simp at hd
      · rw [if_neg hclose] at hd
        cases hpat : patMatch (lines.get ⟨i, h⟩) with
        | some pv =>
          rw [hpat] at hd
          simp only at hd
          rcases List.mem_append.mp hd with h2 | h2
          · exact ih _ d h2
          · exact ih _ d h2
        | none =>
          rw [hpat] at hd
          cases hmw : multiWordMatch (lines.get ⟨i, h⟩) with
          | some header =>
            rw [hmw] at hd
            simp only at hd
            rcases List.mem_append.mp hd with h2 | h2
            · exact ih _ d h2
            · exact ih _ d h2
          | none =>
            rw [hmw] at hd
            cases hleaf : leafMatch (lines.get ⟨i, h⟩) with
            | some grp =>
              rw [hleaf] at hd
              exact ih _ d hd
            | none =>
              rw [hleaf] at hd
              simp only [List.mem_cons] at hd
              rcases hd with h2 | h2
              · refine ⟨i, h, ?_, ?_⟩
                · rw [getD_eq_get_of_lt lines i h]
                  exact h2
                · rw [getD_eq_get_of_lt lines i h]
                  simp only [unparseableLine, Bool.and_eq_true, Bool.not_eq_true',
                    beq_eq_false_iff_ne, Option.isNone_iff_eq_none]
                  exact ⟨⟨⟨hclose, hpat⟩, hmw⟩, hleaf⟩
              · exact ih _ d h2
    · rw [dif_neg h] at hd
      simp at hd

/-- C7: the parser never fails on malformed input — it is a total
function — and every line matching none of the grammar rules is skipped
with a non-fatal diagnostic and parsing continues with the next line.
First part: every diagnostic of a full parse identifies the 1-based index
and content of an unparseable preprocessed line.  Second part: on an
unparseable line the parser emits exactly the diagnostic
`(index + 1, line)` and proceeds from the following line, returning
whatever the remaining lines produce. -/
theorem c7_unparseable_diagnostics :
    (∀ (config : Str), ∀ d ∈ (parseJuniperConfigD config).2,
        ∃ j, j < (preprocess config).length ∧
          d = (j + 1, (preprocess config).getD j []) ∧
          unparseableLine ((preprocess config).getD j []) = true) ∧
    (∀ (fuel : Nat) (lines : List Str) (i : Nat), i < lines.length →
        unparseableLine (lines.getD i []) = true →
        parseBF (fuel + 1) lines i = ⟨(parseBF fuel lines (i + 1)).children,
          (i + 1, lines.getD i []) :: (parseBF fuel lines (i + 1)).diags,
          (parseBF fuel lines (i + 1)).next⟩) := by
  constructor
  · intro config d hd
    exact parseBF_diags_sound (preprocess config) _ 0 d hd
  · intro fuel lines i h hu
    rw [getD_eq_get_of_lt lines i h] at hu ⊢
    simp only [unparseableLine, Bool.and_eq_true, beq_iff_eq, Bool.not_eq_true',
      Option.isNone_iff_eq_none, beq_eq_false_iff_ne] at hu
    rw [parseBF, dif_pos h, if_neg hu.1.1.1, hu.1.1.2, hu.1.2, hu.2]

/-- C7, witness: parsing a configuration with one well-formed line and
one unparseable line yields the diagnostic for preprocessed line 2. -/
theorem c7_witness :
    ∃ j, j < (preprocess (("primary;\n???").data)).length ∧
      ((2 : Nat), ("???").data) = (j + 1, (preprocess (("primary;\n???").data)).getD j []) ∧
      unparseableLine ((preprocess (("primary;\n???").data)).getD j []) = true :=
  c7_unparseable_diagnostics.1 (("primary;\n???").data) (2, ("???").data) (by decide)


/-! ## Claim C9: order-insensitive matching stability -/

/-- A leaf `directive` node: string name, string value, no children (the
shape every directive produced by the parser has). -/
def isLeafDirective (x : JNode) : Bool :=
  x.type == tDirective && x.name.isSome && x.value.isSome && x.children.isEmpty

/-- Constructor of a leaf directive. -/
def dirJ (nm vl : Str) : JNode := ⟨tDirective, some nm, some vl, []⟩

theorem leafDirective_shape (x : JNode) (h : isLeafDirective x = true) :
    ∃ nm vl, x = dirJ nm vl := by
  obtain ⟨ty, nm, vl, cs⟩ := x
  simp only [isLeafDirective, Bool.and_eq_true, beq_iff_eq, Option.isSome_iff_exists,
    List.isEmpty_iff] at h
  obtain ⟨⟨⟨hty, nm', hnm⟩, vl', hvl⟩, hcs⟩ := h
  exact ⟨nm', vl', by simp [dirJ, hty, hnm, hvl, hcs]⟩

/-- The similarity score of two leaf directives: full property overlap,
and one point per agreeing priority property (`name`, `value`) out of
two, blended half and half. -/
theorem calc_dir (n1 v1 n2 v2 : Str) :
    calculateSimilarity (toJVal (dirJ n1 v1)) (toJVal (dirJ n2 v2)) =
      ⟨16 + 8 * ((if n1 = n2 then (1 : Int) else 0) + (if v1 = v2 then (1 : Int) else 0)),
       32⟩ := by
  simp only [dirJ, toJVal, toJValList, calculateSimilarity, JVal.size, JVal.sizeP,
    JVal.sizeL]
  norm_num
  simp [calcSimF, typeofStr, isObjLike, jsTripleEqOpt, jsStrictEq, getProp, List.lookup,
    jkeys, keyPropNames, jsTruthy, Score.add, Score.mul, Score.div, Score.ofNat]
  by_cases hn : n1 = n2 <;> by_cases hv : v1 = v2 <;> simp [hn, hv]

theorem calc_dir_self (n v : Str) :
    calculateSimilarity (toJVal (dirJ n v)) (toJVal (dirJ n v)) = ⟨32, 32⟩ := by
  rw [calc_dir]
  simp

/-- Any leaf-directive score fails to strictly exceed the perfect score. -/
theorem calc_dir_not_above_top (n1 v1 n2 v2 : Str) :
    Score.bltB ⟨32, 32⟩ (calculateSimilarity (toJVal (dirJ n1 v1)) (toJVal (dirJ n2 v2)))
      = false := by
  rw [calc_dir]
  simp only [Score.bltB]
  by_cases hn : n1 = n2 <;> by_cases hv : v1 = v2 <;> simp [hn, hv]

/-- The score of two distinct leaf directives stays strictly below the
perfect score. -/
theorem calc_dir_ne_below_top (n1 v1 n2 v2 : Str) (h : ¬(n1 = n2 ∧ v1 = v2)) :
    Score.bltB (calculateSimilarity (toJVal (dirJ n1 v1)) (toJVal (dirJ n2 v2)))
      ⟨32, 32⟩ = true := by
  rw [calc_dir]
  simp only [Score.bltB]
  by_cases hn : n1 = n2 <;> by_cases hv : v1 = v2 <;> simp_all

theorem diffAstF_self_vstr (fuel : Nat) (s : Str) (opts : DiffOptions) :
    diffAstF fuel (.vstr s) (.vstr s) opts = [] := by
  cases fuel with
  | zero => rfl
  | succ fuel =>
    simp only [diffAstF]
    rw [if_neg (by simp)]
    rw [if_pos (by simp [isObjLike])]
    simp [jsStrictEq]

theorem diffAstF_self_nilarr (fuel : Nat) (opts : DiffOptions) :
    diffAstF fuel (.varr []) (.varr []) opts = [] := by
  cases fuel with
  | zero => rfl
  | succ fuel =>
    simp only [diffAstF]
    rw [if_neg (by simp)]
    rw [if_neg (by simp [isObjLike])]
    split <;> simp [bestMatchLoop]

/-- Diffing a leaf directive against itself is empty for any options whose
ignore list is the default one, any fuel, either array policy. -/
theorem diffAstF_self_leafdir (fuel : Nat) (nm vl : Str) (opts : DiffOptions)
    (hip : opts.ignoreProperties = [("loc").data, ("range").data]) :
    diffAstF fuel (toJVal (dirJ nm vl)) (toJVal (dirJ nm vl)) opts = [] := by
  cases fuel with
  | zero => rfl
  | succ fuel =>
    simp only [dirJ, toJVal, toJValList, diffAstF]
    rw [if_neg (by simp)]
    rw [if_neg (by simp [isObjLike])]
    simp only [hip]
    simp [setUnion, getProp, List.lookup, jkeys, diffAstF_self_vstr, diffAstF_self_nilarr,
      jsTruthy, jvalDisplay]


/-- Processing further leaf directives never displaces a perfect best
match: no score strictly exceeds the perfect score, and the comparison is
strict. -/
theorem bestMatch_keep (d : JNode) (matched : List Nat)
    (hd : isLeafDirective d = true) :
    ∀ (rest : List JNode) (n : Nat) (j : Int),
      (∀ x ∈ rest, isLeafDirective x = true) →
      (List.enumFrom n (rest.map toJVal)).foldl
        (fun best jn =>
          if matched.contains jn.1 then best
          else
            let s := calculateSimilarity (toJVal d) jn.2
            if Score.bltB best.2 s then ((jn.1 : Int), s) else best)
        (j, ⟨32, 32⟩) = (j, ⟨32, 32⟩) := by
  intro rest
  induction rest with
  | nil => intro n j _; rfl
  | cons e es ih =>
    intro n j hall
    obtain ⟨ne, ve, he⟩ := leafDirective_shape e (hall e (List.mem_cons_self e es))
    obtain ⟨nd, vd, hdd⟩ := leafDirective_shape d hd
    simp only [List.map_cons, List.enumFrom, List.foldl_cons]
    by_cases hm : matched.contains n = true
    · rw [if_pos hm]
      exact ih (n + 1) j (fun x hx => hall x (List.mem_cons_of_mem e hx))
    · rw [if_neg hm]
      have hcond : Score.bltB (⟨32, 32⟩ : Score)
          (calculateSimilarity (toJVal d) (toJVal e)) = false := by
        rw [hdd, he]; exact calc_dir_not_above_top nd vd ne ve
      simp only [hcond, Bool.false_eq_true, if_false]
      exact ih (n + 1) j (fun x hx => hall x (List.mem_cons_of_mem e hx))

/-- The inner matching loop settles on the unique unmatched copy of the
probed leaf directive, with a perfect score. -/
theorem bestMatch_find (d : JNode) (matched : List Nat)
    (hd : isLeafDirective d = true) :
    ∀ (l : List JNode) (n : Nat) (j : Nat) (best : Int × Score),
      (∀ x ∈ l, isLeafDirective x = true) →
      Score.bltB best.2 ⟨32, 32⟩ = true →
      n ≤ j → l.get? (j - n) = some d →
      (∀ k, l.get? k = some d → k = j - n) →
      matched.contains j = false →
      (List.enumFrom n (l.map toJVal)).foldl
        (fun best jn =>
          if matched.contains jn.1 then best
          else
            let s := calculateSimilarity (toJVal d) jn.2
            if Score.bltB best.2 s then ((jn.1 : Int), s) else best)
        best = ((j : Int), ⟨32, 32⟩) := by
  intro l
  induction l with
  | nil =>
    intro n j best _ _ _ hget _ _
    simp at hget
  | cons e es ih =>
    intro n j best hall hb hnj hget huniq hjm
    obtain ⟨nd, vd, hdd⟩ := leafDirective_shape d hd
    simp only [List.map_cons, List.enumFrom, List.foldl_cons]
    by_cases hjn : j = n
    · subst hjn
      have hget0 : (e :: es).get? 0 = some d := by simpa using hget
      have hed : e = d := by simpa using hget0
      subst hed
      have hcj : ¬(matched.contains j = true) := by
        rw [hjm]; exact Bool.false_ne_true
      rw [if_neg hcj]
      have hcs : calculateSimilarity (toJVal e) (toJVal e) = ⟨32, 32⟩ := by
        rw [hdd]; exact calc_dir_self nd vd
      simp only [hcs, hb, if_true]
      exact bestMatch_keep e matched hd es (j + 1) j
        (fun x hx => hall x (List.mem_cons_of_mem e hx))
    · have hlt : n < j := lt_of_le_of_ne hnj (fun h => hjn h.symm)
      have hgetes : es.get? (j - (n + 1)) = some d := by
        have h1 : j - n = (j - (n + 1)) + 1 := by omega
        rw [h1] at hget
        simpa using hget
      have huniqes : ∀ k, es.get? k = some d → k = j - (n + 1) := by
        intro k hk
        have h2 : (e :: es).get? (k + 1) = some d := by simpa using hk
        have := huniq (k + 1) h2
        omega
      have hne : ¬(e = d) := by
        intro hed
        have h0 : (e :: es).get? 0 = some d := by simp [hed]
        have := huniq 0 h0
        omega
      obtain ⟨a, b, hab⟩ := leafDirective_shape e (hall e (List.mem_cons_self e es))
      have hnab : ¬(nd = a ∧ vd = b) := by
        intro ⟨h3, h4⟩
        exact hne (by rw [hab, hdd, h3, h4])
      by_cases hm : matched.contains n = true
      · rw [if_pos hm]
        exact ih (n + 1) j best
          (fun x hx => hall x (List.mem_cons_of_mem e hx)) hb hlt hgetes huniqes hjm
      · rw [if_neg hm]
        have hbelow : Score.bltB (calculateSimilarity (toJVal d) (toJVal e))
            ⟨32, 32⟩ = true := by
          rw [hdd, hab]; exact calc_dir_ne_below_top nd vd a b hnab
        by_cases hup : Score.bltB best.2
            (calculateSimilarity (toJVal d) (toJVal e)) = true
        · simp only [hup, if_true]
          exact ih (n + 1) j ((n : Int), calculateSimilarity (toJVal d) (toJVal e))
            (fun x hx => hall x (List.mem_cons_of_mem e hx))
            hbelow hlt hgetes huniqes hjm
        · simp only [hup, Bool.false_eq_true, if_false]
          exact ih (n + 1) j best
            (fun x hx => hall x (List.mem_cons_of_mem e hx)) hb hlt hgetes huniqes hjm

/-- `bestMatchLoop` on a probe that occurs in a duplicate-free list of
leaf directives, its index unmatched, returns that index with the perfect
score. -/
theorem bestMatchLoop_copy (d : JNode) (m : List JNode) (matched : List Nat)
    (hd : isLeafDirective d = true) (hm : ∀ x ∈ m, isLeafDirective x = true)
    (hmem : d ∈ m) (hnodup : m.Nodup)
    (hjm : matched.contains (m.indexOf d) = false) :
    bestMatchLoop (toJVal d) (m.map toJVal) matched
      = ((m.indexOf d : Int), ⟨32, 32⟩) := by
  have hidx : m.indexOf d < m.length := List.indexOf_lt_length.mpr hmem
  have hmain := bestMatch_find d matched hd m 0 (m.indexOf d) (-1, ⟨-1, 1⟩) hm
    (by decide) (Nat.zero_le _)
    (by simpa using List.indexOf_get? hmem)
    (by
      intro k hk
      have hkl : k < m.length := by
        by_contra hge
        rw [List.get?_eq_none.mpr (by omega)] at hk
        exact Option.noConfusion hk
      have hkd : m.get ⟨k, hkl⟩ = d := by
        have := List.get?_eq_get hkl
        rw [this] at hk
        exact Option.some_injective _ hk
      have hgi : m.get ⟨m.indexOf d, hidx⟩ = d := List.indexOf_get hidx
      have : m.get ⟨k, hkl⟩ = m.get ⟨m.indexOf d, hidx⟩ := by rw [hkd, hgi]
      have h2 := (List.Nodup.get_inj_iff hnodup).mp this
      simpa using h2)
    hjm
  simpa [bestMatchLoop, List.enum] using hmain


/-- First pass of the unordered array diff over duplicate-free leaf
directives drawn from `m`: every probe finds its own copy, appends its
index in `m` to the matched list, and contributes no diff records. -/
theorem firstPass_go (m : List JNode) (fuel : Nat) (opts : DiffOptions)
    (hip : opts.ignoreProperties = [("loc").data, ("range").data])
    (hm : ∀ x ∈ m, isLeafDirective x = true) (hnodup : m.Nodup) :
    ∀ (lefts : List JNode) (n : Nat) (matched : List Nat) (diffs : List DiffRec),
      (∀ x ∈ lefts, isLeafDirective x = true) →
      lefts.Nodup →
      (∀ x ∈ lefts, x ∈ m) →
      (∀ x ∈ lefts, matched.contains (m.indexOf x) = false) →
      (List.enumFrom n (lefts.map toJVal)).foldl
        (fun (st : List Nat × List DiffRec) en =>
          let i := en.1
          let oldNode := en.2
          let best := bestMatchLoop oldNode (m.map toJVal) st.1
          if best.1 ≥ 0 ∧ Score.bltB ⟨7, 10⟩ best.2 then
            let j := best.1.toNat
            let childDiffs := diffAstF fuel oldNode ((m.map toJVal).getD j .vnull)
              { opts with
                currentPath := opts.currentPath ++ [natToStr i],
                absolutePath := getAbsolutePathJ opts.absolutePath oldNode (natToStr i),
                maxDepth := mdDec opts.maxDepth }
            (st.1 ++ [j], st.2 ++ childDiffs)
          else
            (st.1, st.2 ++
              [{ type := ("remove").data,
                 path := opts.currentPath ++ [natToStr i],
                 absolutePath := getAbsolutePathJ opts.absolutePath oldNode (natToStr i),
                 oldValue := some oldNode,
                 nodeType := some (getNodeTypeJ oldNode) }]))
        (matched, diffs)
      = (matched ++ lefts.map (fun x => m.indexOf x), diffs) := by
  intro lefts
  induction lefts with
  | nil => intro n matched diffs _ _ _ _; simp
  | cons x xs ih =>
    intro n matched diffs hall hnd hsub hmat
    have hxdir := hall x (List.mem_cons_self x xs)
    obtain ⟨nx, vx, hx⟩ := leafDirective_shape x hxdir
    have hxm : x ∈ m := hsub x (List.mem_cons_self x xs)
    have hidx : m.indexOf x < m.length := List.indexOf_lt_length.mpr hxm
    have hbest : bestMatchLoop (toJVal x) (m.map toJVal) matched
        = ((m.indexOf x : Int), ⟨32, 32⟩) :=
      bestMatchLoop_copy x m matched hxdir hm hxm hnodup
        (hmat x (List.mem_cons_self x xs))
    have hgetd : (m.map toJVal).getD (m.indexOf x) JVal.vnull = toJVal x := by
      rw [List.getD_eq_getElem _ _ (by simpa using hidx)]
      rw [List.getElem_map]
      rw [List.getElem_indexOf hidx]
    have hdiff : ∀ o : DiffOptions, o.ignoreProperties = opts.ignoreProperties →
        diffAstF fuel (toJVal x) (toJVal x) o = [] := by
      intro o ho
      rw [hx]
      exact diffAstF_self_leafdir fuel nx vx o (ho.trans hip)
    simp only [List.map_cons, List.enumFrom, List.foldl_cons, hbest]
    have hcnd : ((m.indexOf x : Int) ≥ 0 ∧ Score.bltB ⟨7, 10⟩ ⟨32, 32⟩ = true) :=
      ⟨Int.natCast_nonneg _, by decide⟩
    rw [if_pos hcnd]
    rw [Int.toNat_natCast, hgetd,
      hdiff { opts with
              currentPath := opts.currentPath ++ [natToStr n],
              absolutePath := getAbsolutePathJ opts.absolutePath (toJVal x) (natToStr n),
              maxDepth := mdDec opts.maxDepth } rfl,
      List.append_nil]
    rw [ih (n + 1) (matched ++ [m.indexOf x]) diffs
      (fun y hy => hall y (List.mem_cons_of_mem x hy))
      (List.Nodup.of_cons hnd)
      (fun y hy => hsub y (List.mem_cons_of_mem x hy))
      (by
        intro y hy
        have hyne : y ≠ x := fun h => (List.nodup_cons.mp hnd).1 (h ▸ hy)
        have hine : m.indexOf y ≠ m.indexOf x := fun h =>
          hyne ((List.indexOf_inj (hsub y (List.mem_cons_of_mem x hy)) hxm).mp h)
        have hold := hmat y (List.mem_cons_of_mem x hy)
        simp only [List.elem_eq_mem, decide_eq_false_iff_not] at hold ⊢
        simp [List.mem_append, hold, hine])]
    simp


/-- The add phase emits nothing when the matched list covers every index
of the right-hand array. -/
theorem filterMap_skip_all {β : Type} (matched : List Nat)
    (g : Nat × JVal → Option β) :
    ∀ (lb : List JVal) (n : Nat),
      (∀ j, n ≤ j → j < n + lb.length → matched.contains j = true) →
      (List.enumFrom n lb).filterMap
        (fun jn => if matched.contains jn.1 then none else g jn) = [] := by
  intro lb
  induction lb with
  | nil => intro n _; rfl
  | cons b bs ih =>
    intro n hc
    have hn : matched.contains n = true := hc n le_rfl (by simp)
    simp only [List.enumFrom, List.filterMap_cons, hn, if_true]
    exact ih (n + 1) (fun j h1 h2 => hc j (by omega) (by simp at h2 ⊢; omega))

/-- A duplicate-free list of members of `m` at least as long as `m` hits
every index of `m` under `indexOf`. -/
theorem matched_covers (m l : List JNode) (hsub : ∀ x ∈ l, x ∈ m)
    (hnodup : l.Nodup) (hlen : m.length ≤ l.length) :
    ∀ j, j < m.length → (l.map (fun x => m.indexOf x)).contains j = true := by
  intro j hj
  have hinj : ∀ x ∈ l, ∀ y ∈ l, m.indexOf x = m.indexOf y → x = y := by
    intro x hx y hy hxy
    exact (List.indexOf_inj (hsub x hx) (hsub y hy)).mp hxy
  have hmdnodup : (l.map (fun x => m.indexOf x)).Nodup :=
    List.Nodup.map_on hinj hnodup
  have hbound : ∀ i ∈ l.map (fun x => m.indexOf x), i < m.length := by
    intro i hi
    obtain ⟨x, hx, hix⟩ := List.mem_map.mp hi
    exact hix ▸ List.indexOf_lt_length.mpr (hsub x hx)
  have hsubset : (l.map (fun x => m.indexOf x)).toFinset ⊆ Finset.range m.length := by
    intro i hi
    exact Finset.mem_range.mpr (hbound i (List.mem_toFinset.mp hi))
  have hcard : (Finset.range m.length).card ≤
      (l.map (fun x => m.indexOf x)).toFinset.card := by
    rw [Finset.card_range, List.toFinset_card_of_nodup hmdnodup]
    simpa using hlen
  have heq := Finset.eq_of_subset_of_card_le hsubset hcard
  have hjmem : j ∈ (l.map (fun x => m.indexOf x)).toFinset := by
    rw [heq]; exact Finset.mem_range.mpr hj
  simpa [List.elem_eq_mem] using List.mem_toFinset.mp hjmem

/-- Unordered diff of two permuted arrays of distinct leaf directives is
empty, for any fuel and any options with the default ignore list and
unordered policy. -/
theorem c9_main (fuel : Nat) (l m : List JNode) (opts : DiffOptions)
    (hip : opts.ignoreProperties = [("loc").data, ("range").data])
    (hiao : opts.ignoreArrayOrder = true)
    (hperm : l.Perm m) (hdir : ∀ x ∈ l, isLeafDirective x = true)
    (hnodup : l.Nodup) :
    diffAstF (fuel + 1) (.varr (l.map toJVal)) (.varr (m.map toJVal)) opts = [] := by
  have hm : ∀ x ∈ m, isLeafDirective x = true := fun x hx =>
    hdir x (hperm.mem_iff.mpr hx)
  have hnodupm : m.Nodup := hperm.nodup_iff.mp hnodup
  have hsub : ∀ x ∈ l, x ∈ m := fun x hx => hperm.mem_iff.mp hx
  have hlen : m.length ≤ l.length := le_of_eq hperm.length_eq.symm
  have hfp := firstPass_go m fuel opts hip hm hnodupm l 0 [] []
    hdir hnodup hsub (by intro x _; rfl)
  simp only [diffAstF]
  rw [if_neg (show ¬typeofStr (JVal.varr (l.map toJVal)) ≠
    typeofStr (JVal.varr (m.map toJVal)) from not_not_intro rfl)]
  rw [if_neg (show ¬(JVal.varr (l.map toJVal) = JVal.vnull ∨
      JVal.varr (m.map toJVal) = JVal.vnull ∨
      ¬isObjLike (JVal.varr (l.map toJVal)) ∨
      ¬isObjLike (JVal.varr (m.map toJVal))) by simp [isObjLike])]
  rw [if_pos hiao]
  rw [show (l.map toJVal).enum = List.enumFrom 0 (l.map toJVal) from rfl]
  rw [hfp]
  simp only [List.nil_append]
  rw [show (m.map toJVal).enum = List.enumFrom 0 (m.map toJVal) from rfl]
  rw [filterMap_skip_all (l.map (fun x => m.indexOf x)) _ (m.map toJVal) 0
    (by
      intro j _ hj
      exact matched_covers m l hsub hnodup hlen j (by simpa using hj))]


/-- A singleton array diffed against its own reverse under
`ignoreArrayOrder` still produces a `remove` and an `add`: the root-like
element's self-similarity of 1/2 misses the 0.7 threshold. -/
theorem c9_counterexample :
    (diffAst (.varr [toJVal ⟨tRoot, none, none, []⟩])
        (.varr (List.reverse [toJVal ⟨tRoot, none, none, []⟩]))
        { ignoreArrayOrder := true }).map DiffRec.type
      = [("remove").data, ("add").data] := by decide


/-- C9 — Order-insensitive matching stability. Amended to arrays of
distinct leaf directives: for two arrays of leaf-directive elements that
are permutations of one another (duplicate-free), diffing under
`ignoreArrayOrder: true` with the default ignore list yields no records
at all — each left element matches its own copy on the right with a
perfect score above the 0.7 threshold, and every right index ends up
matched. (The unrestricted claim fails: see the counterexample, where a
root-like element's self-similarity 1/2 falls below the threshold.) -/
theorem c9_amended (l m : List JNode)
    (hperm : l.Perm m) (hdir : ∀ x ∈ l, isLeafDirective x = true)
    (hnodup : l.Nodup) :
    diffAst (.varr (l.map toJVal)) (.varr (m.map toJVal))
      { ignoreArrayOrder := true } = [] := by
  rw [diffAst]
  exact c9_main (JVal.size (.varr (l.map toJVal))) l m _ rfl rfl hperm hdir hnodup

theorem c9_amended_witness :
    ([dirJ (("a").data) (("b").data), dirJ (("c").data) (("d").data)] : List JNode).Perm
        [dirJ (("c").data) (("d").data), dirJ (("a").data) (("b").data)] ∧
    (∀ x ∈ ([dirJ (("a").data) (("b").data), dirJ (("c").data) (("d").data)] : List JNode),
        isLeafDirective x = true) ∧
    ([dirJ (("a").data) (("b").data), dirJ (("c").data) (("d").data)] : List JNode).Nodup ∧
    diffAst
      (.varr (([dirJ (("a").data) (("b").data), dirJ (("c").data) (("d").data)] :
        List JNode).map toJVal))
      (.varr (([dirJ (("c").data) (("d").data), dirJ (("a").data) (("b").data)] :
        List JNode).map toJVal))
      { ignoreArrayOrder := true } = [] :=
  ⟨List.Perm.swap (dirJ (("c").data) (("d").data)) (dirJ (("a").data) (("b").data)) [],
   by decide, by decide,
   c9_amended _ _
     (List.Perm.swap (dirJ (("c").data) (("d").data)) (dirJ (("a").data) (("b").data)) [])
     (by decide) (by decide)⟩


/-! ### String facts for the round trip -/

theorem tokOK_spec (s : Str) (h : tokOK s = true) :
    s ≠ [] ∧ ∀ c ∈ s, isSpace c = false ∧ c ≠ '#' := by
  simp only [tokOK, Bool.and_eq_true, List.all_eq_true] at h
  constructor
  · intro hnil
    rw [hnil] at h
    simp at h
  · intro c hc
    have := h.2 c hc
    simp only [Bool.and_eq_true, Bool.not_eq_true', decide_eq_true_eq] at this
    exact this

theorem trimLeft_tok_append (s r : Str) (hne : s ≠ [])
    (hs : ∀ c ∈ s, isSpace c = false) : trimLeft (s ++ r) = s ++ r := by
  cases s with
  | nil => exact absurd rfl hne
  | cons c t =>
    simp only [trimLeft, List.cons_append, List.dropWhile_cons,
      hs c (List.mem_cons_self c t), Bool.false_eq_true, if_false]

theorem trimRight_concat (y : Str) (c : Char) (hc : isSpace c = false) :
    trimRight (y ++ [c]) = y ++ [c] := by
  simp only [trimRight, trimLeft, List.reverse_append, List.reverse_cons,
    List.reverse_nil, List.nil_append, List.cons_append, List.dropWhile_cons, hc]
  simp

theorem stripComment_eq_self (l : Str) (h : ∀ c ∈ l, c ≠ '#') :
    stripComment l = l := by
  refine List.takeWhile_eq_self_iff.mpr ?_
  intro c hc
  simpa using h c hc

theorem dropWhile_indent (d : Nat) (s : Str) :
    (indentStr d ++ s).dropWhile isSpace = s.dropWhile isSpace := by
  refine List.dropWhile_append_of_pos ?_
  intro c hc
  have : c = ' ' := List.eq_of_mem_replicate hc
  simp [this, isSpace]

/-- The preprocessing of a canonical content line under its indentation:
comment stripping and trimming give back the content. -/
theorem processLine_canon (d : Nat) (y : Str) (c : Char)
    (hc : isSpace c = false) (hleft : trimLeft (y ++ [c]) = y ++ [c])
    (hhash : ∀ ch ∈ y ++ [c], ch ≠ '#') :
    processLine (indentStr d ++ (y ++ [c])) = y ++ [c] := by
  have hstrip : stripComment (indentStr d ++ (y ++ [c])) = indentStr d ++ (y ++ [c]) := by
    refine stripComment_eq_self _ ?_
    intro ch hch
    rcases List.mem_append.mp hch with h1 | h2
    · have : ch = ' ' := List.eq_of_mem_replicate h1
      simp [this]
    · exact hhash ch h2
  simp only [processLine, hstrip, trim]
  rw [show trimLeft (indentStr d ++ (y ++ [c])) = y ++ [c] from by
    simpa [trimLeft, dropWhile_indent] using hleft]
  exact trimRight_concat y c hc

theorem wordTail_all (t : Str) (h : ∀ c ∈ t, isSpace c = false) :
    wordTail t = t := by
  induction t with
  | nil => rfl
  | cons c cs ih =>
    simp only [wordTail, h c (List.mem_cons_self c cs), Bool.false_eq_true, if_false]
    rw [ih (fun x hx => h x (List.mem_cons_of_mem c hx))]

theorem wordsAfter_all (t : Str) (h : ∀ c ∈ t, isSpace c = false) :
    wordsAfter t = [] := by
  induction t with
  | nil => rfl
  | cons c cs ih =>
    simp only [wordsAfter, h c (List.mem_cons_self c cs), Bool.false_eq_true, if_false]
    exact ih (fun x hx => h x (List.mem_cons_of_mem c hx))

theorem wordTail_sp (t s : Str) (h : ∀ c ∈ t, isSpace c = false) :
    wordTail (t ++ ' ' :: s) = t := by
  induction t with
  | nil => simp [wordTail, isSpace]
  | cons c cs ih =>
    simp only [List.cons_append, wordTail, h c (List.mem_cons_self c cs),
      Bool.false_eq_true, if_false, List.append_eq]
    rw [ih (fun x hx => h x (List.mem_cons_of_mem c hx))]

theorem wordsAfter_sp (t s : Str) (h : ∀ c ∈ t, isSpace c = false) :
    wordsAfter (t ++ ' ' :: s) = words s := by
  induction t with
  | nil => simp [wordsAfter, isSpace]
  | cons c cs ih =>
    simp only [List.cons_append, wordsAfter, h c (List.mem_cons_self c cs),
      Bool.false_eq_true, if_false, List.append_eq]
    exact ih (fun x hx => h x (List.mem_cons_of_mem c hx))

theorem words_tok (t : Str) (hne : t ≠ []) (h : ∀ c ∈ t, isSpace c = false) :
    words t = [t] := by
  cases t with
  | nil => exact absurd rfl hne
  | cons c cs =>
    simp only [words, h c (List.mem_cons_self c cs), Bool.false_eq_true, if_false]
    rw [wordTail_all cs (fun x hx => h x (List.mem_cons_of_mem c hx)),
      wordsAfter_all cs (fun x hx => h x (List.mem_cons_of_mem c hx))]

theorem words_tok_cons (t s : Str) (hne : t ≠ [])
    (h : ∀ c ∈ t, isSpace c = false) :
    words (t ++ ' ' :: s) = t :: words s := by
  cases t with
  | nil => exact absurd rfl hne
  | cons c cs =>
    simp only [List.cons_append, words, h c (List.mem_cons_self c cs),
      Bool.false_eq_true, if_false, List.append_eq]
    rw [wordTail_sp cs s (fun x hx => h x (List.mem_cons_of_mem c hx)),
      wordsAfter_sp cs s (fun x hx => h x (List.mem_cons_of_mem c hx))]


mutual

/-- Tokens produced by `words` are nonempty and whitespace-free. -/
theorem words_good : ∀ (s : Str), ∀ t ∈ words s, t ≠ [] ∧ ∀ c ∈ t, isSpace c = false
  | [] => by simp [words]
  | c :: cs => by
    intro t ht
    simp only [words] at ht
    by_cases h : isSpace c
    · rw [if_pos h] at ht
      exact words_good cs t ht
    · rw [if_neg h] at ht
      rcases List.mem_cons.mp ht with h1 | h2
      · subst h1
        refine ⟨by simp, ?_⟩
        intro x hx
        rcases List.mem_cons.mp hx with h3 | h4
        · subst h3; simpa using h
        · exact wordTail_good cs x h4
      · exact wordsAfter_good cs t h2

/-- `wordTail` output is whitespace-free. -/
theorem wordTail_good : ∀ (s : Str), ∀ c ∈ wordTail s, isSpace c = false
  | [] => by simp [wordTail]
  | c :: cs => by
    intro x hx
    simp only [wordTail] at hx
    by_cases h : isSpace c
    · rw [if_pos h] at hx; simp at hx
    · rw [if_neg h] at hx
      rcases List.mem_cons.mp hx with h1 | h2
      · subst h1; simpa using h
      · exact wordTail_good cs x h2

/-- `wordsAfter` output inherits the `words` token shape. -/
theorem wordsAfter_good : ∀ (s : Str), ∀ t ∈ wordsAfter s, t ≠ [] ∧ ∀ c ∈ t, isSpace c = false
  | [] => by simp [wordsAfter]
  | c :: cs => by
    intro t ht
    simp only [wordsAfter] at ht
    by_cases h : isSpace c
    · rw [if_pos h] at ht
      exact words_good cs t ht
    · rw [if_neg h] at ht
      exact wordsAfter_good cs t ht

end

/-- Every character of a space-join is a token character or a space. -/
theorem joinSp_mem (ws : List Str) :
    ∀ c ∈ joinSp ws, c = ' ' ∨ ∃ t ∈ ws, c ∈ t := by
  induction ws with
  | nil => simp [joinSp, joinSep]
  | cons t ts ih =>
    intro c hc
    cases ts with
    | nil =>
      simp only [joinSp, joinSep] at hc
      exact Or.inr ⟨t, List.mem_cons_self t [], hc⟩
    | cons t2 ts2 =>
      simp only [joinSp, joinSep] at hc ih
      rcases List.mem_append.mp hc with h1 | h2
      · exact Or.inr ⟨t, List.mem_cons_self t _, h1⟩
      · rcases List.mem_cons.mp h2 with h3 | h4
        · exact Or.inl h3
        · rcases ih c h4 with h5 | ⟨u, hu, hcu⟩
          · exact Or.inl h5
          · exact Or.inr ⟨u, List.mem_cons_of_mem t hu, hcu⟩

/-- A space-join of good tokens ends in a non-space character. -/
theorem joinSp_concat (ws : List Str) (hne : ws ≠ [])
    (h : ∀ t ∈ ws, t ≠ [] ∧ ∀ c ∈ t, isSpace c = false) :
    ∃ y c, joinSp ws = y ++ [c] ∧ isSpace c = false := by
  induction ws with
  | nil => exact absurd rfl hne
  | cons t ts ih =>
    cases ts with
    | nil =>
      obtain ⟨htne, htok⟩ := h t (List.mem_cons_self t [])
      refine ⟨t.dropLast, t.getLast htne, ?_, ?_⟩
      · simp only [joinSp, joinSep]
        exact (List.dropLast_append_getLast htne).symm
      · exact htok _ (List.getLast_mem htne)
    | cons t2 ts2 =>
      obtain ⟨y, c, hy, hc⟩ := ih (by simp)
        (fun u hu => h u (List.mem_cons_of_mem t hu))
      refine ⟨t ++ ' ' :: y, c, ?_, hc⟩
      have hstep : joinSp (t :: t2 :: ts2) = t ++ ' ' :: joinSp (t2 :: ts2) := rfl
      rw [hstep, hy]
      simp

/-- Unpack `valOK`. -/
theorem valOK_spec (v : Str) (h : valOK v = true) :
    words v ≠ [] ∧ v = joinSp (words v) ∧ ∀ c ∈ v, c ≠ '"' ∧ c ≠ '#' := by
  simp only [valOK, Bool.and_eq_true, List.all_eq_true, beq_iff_eq] at h
  refine ⟨?_, h.1.2, ?_⟩
  · intro hnil
    rw [hnil] at h
    simp at h
  · intro c hc
    have := h.2 c hc
    simp only [Bool.and_eq_true, decide_eq_true_eq] at this
    exact this

/-- A canonical value ends in a non-space character. -/
theorem valOK_concat (v : Str) (h : valOK v = true) :
    ∃ y c, v = y ++ [c] ∧ isSpace c = false := by
  obtain ⟨hne, hjoin, _⟩ := valOK_spec v h
  obtain ⟨y, c, hy, hc⟩ := joinSp_concat (words v) hne (words_good v)
  exact ⟨y, c, hjoin.trans hy, hc⟩

/-- A canonical value contains no line feed. -/
theorem valOK_no_nl (v : Str) (h : valOK v = true) : '\n' ∉ v := by
  obtain ⟨hne, hjoin, _⟩ := valOK_spec v h
  intro hmem
  rw [hjoin] at hmem
  rcases joinSp_mem (words v) '\n' hmem with h1 | ⟨t, ht, hct⟩
  · simp at h1
  · have := (words_good v t ht).2 '\n' hct
    simp [isSpace] at this

/-- Unpack `patOK`. -/
theorem patOK_spec (s : Str) (h : patOK s = true) :
    s ≠ [] ∧ ∀ c ∈ s, c ≠ '>' ∧ c ≠ '\n' ∧ c ≠ '#' := by
  simp only [patOK, Bool.and_eq_true, List.all_eq_true] at h
  constructor
  · intro hnil
    rw [hnil] at h
    simp at h
  · intro c hc
    have := h.2 c hc
    simp only [Bool.and_eq_true, decide_eq_true_eq] at this
    exact ⟨this.1.1, this.1.2, this.2⟩

/-- Unpack `patValOK`: the value is `<` body `>`. -/
theorem patValOK_spec (v : Str) (h : patValOK v = true) :
    ∃ w, v = '<' :: w ++ ['>'] ∧ patOK w = true := by
  cases v with
  | nil => simp [patValOK] at h
  | cons c rest =>
    simp only [patValOK, Bool.and_eq_true, decide_eq_true_eq] at h
    obtain ⟨hc, h2⟩ := h
    subst hc
    cases hrev : rest.reverse with
    | nil => rw [hrev] at h2; simp at h2
    | cons c2 wrev =>
      rw [hrev] at h2
      simp only [Bool.and_eq_true, decide_eq_true_eq] at h2
      obtain ⟨hc2, hw⟩ := h2
      subst hc2
      refine ⟨wrev.reverse, ?_, hw⟩
      have hre : rest = ('>' :: wrev).reverse := by
        rw [← hrev, List.reverse_reverse]
      rw [hre]
      simp


/-- A line accepted by the multi-word block rule ends in `\x7b`. -/
theorem multiWordMatch_last (l : Str) (p : Str) (h : multiWordMatch l = some p) :
    l.getLast? = some '\x7b' := by
  unfold multiWordMatch at h
  split at h
  · next c c2 rest heq =>
    rw [← List.head?_reverse, heq]
    rfl
  · exact absurd h (by simp)

/-- A line accepted by the pattern-block rule ends in `\x7b`. -/
theorem patMatch_last (l : Str) (p : Str × Str) (h : patMatch l = some p) :
    l.getLast? = some '\x7b' := by
  simp only [patMatch] at h
  repeat' split at h
  any_goals exact Option.noConfusion h
  rename_i hta hws1 r2 r3 heq2 htw r4 r5 heq4 hws2 heq6
  have e1 : l = l.takeWhile (fun c => !isSpace c) ++
      l.dropWhile (fun c => !isSpace c) :=
    (List.takeWhile_append_dropWhile _ _).symm
  have e2 : l.dropWhile (fun c => !isSpace c) =
      (l.dropWhile (fun c => !isSpace c)).takeWhile isSpace ++
      (l.dropWhile (fun c => !isSpace c)).dropWhile isSpace :=
    (List.takeWhile_append_dropWhile _ _).symm
  have e3 : r3 = r3.takeWhile (fun c => c ≠ '>') ++
      r3.dropWhile (fun c => c ≠ '>') :=
    (List.takeWhile_append_dropWhile _ _).symm
  have e4 : r5 = r5.takeWhile isSpace ++ r5.dropWhile isSpace :=
    (List.takeWhile_append_dropWhile _ _).symm
  have g6 : (r5.dropWhile isSpace).getLast? = some '\x7b' := by
    rw [heq6]
    rfl
  have g5 : r5.getLast? = some '\x7b' := by
    rw [e4, List.getLast?_append_of_ne_nil _ (by rw [heq6]; simp)]
    exact g6
  have hr5ne : r5 ≠ [] := by
    intro hnil
    rw [hnil] at g5
    simp at g5
  have g4 : ('>' :: r5).getLast? = some '\x7b' := by
    rw [show ('>' :: r5 : Str) = ['>'] ++ r5 from rfl,
      List.getLast?_append_of_ne_nil _ hr5ne]
    exact g5
  have g3 : r3.getLast? = some '\x7b' := by
    rw [e3, List.getLast?_append_of_ne_nil _ (by rw [heq4]; simp), heq4]
    exact g4
  have hr3ne : r3 ≠ [] := by
    intro hnil
    rw [hnil] at g3
    simp at g3
  have g2 : ((l.dropWhile (fun c => !isSpace c)).dropWhile isSpace).getLast?
      = some '\x7b' := by
    rw [heq2, show ('<' :: r3 : Str) = ['<'] ++ r3 from rfl,
      List.getLast?_append_of_ne_nil _ hr3ne]
    exact g3
  have g1 : (l.dropWhile (fun c => !isSpace c)).getLast? = some '\x7b' := by
    rw [e2, List.getLast?_append_of_ne_nil _ ?_]
    · exact g2
    · intro hnil
      rw [hnil] at g2
      simp at g2
  rw [e1, List.getLast?_append_of_ne_nil _ ?_]
  · exact g1
  · intro hnil
    rw [hnil] at g1
    simp at g1

/-- Leaf lines: text before a final semicolon, whole group returned. -/
theorem leafMatch_concat (g : Str) (hne : g ≠ []) :
    leafMatch (g ++ [';']) = some g := by
  unfold leafMatch
  cases hg : g.reverse with
  | nil => exact absurd (by simpa using congrArg List.reverse hg) hne
  | cons c rest =>
    have : (g ++ [';']).reverse = ';' :: c :: rest := by
      rw [List.reverse_append, hg]
      rfl
    rw [this]
    have hgr : g = (c :: rest).reverse := by
      rw [← hg, List.reverse_reverse]
    show some ((c :: rest).reverse) = some g
    rw [← hgr]

/-- Block-header lines: everything before the final ` \x7b` is returned. -/
theorem multiWordMatch_concat (hd : Str) (hne : hd ≠ []) :
    multiWordMatch (hd ++ [' ', '\x7b']) = some hd := by
  unfold multiWordMatch
  cases hh : hd.reverse with
  | nil => exact absurd (by simpa using congrArg List.reverse hh) hne
  | cons c2 rest =>
    have : (hd ++ [' ', '\x7b']).reverse = '\x7b' :: ' ' :: c2 :: rest := by
      rw [List.reverse_append, hh]
      rfl
    rw [this]
    have hgr : hd = (c2 :: rest).reverse := by
      rw [← hh, List.reverse_reverse]
    show (if isSpace ' ' then some ((c2 :: rest).reverse) else none) = some hd
    rw [if_pos (show isSpace ' ' = true from rfl), ← hgr]


/-- Lines ending in `;` never match the pattern-block rule. -/
theorem patMatch_semi (g : Str) : patMatch (g ++ [';']) = none := by
  cases hpm : patMatch (g ++ [';']) with
  | none => rfl
  | some p =>
    have hlast := patMatch_last _ p hpm
    rw [List.getLast?_append_of_ne_nil _ (by simp)] at hlast
    simp at hlast

/-- Lines ending in `;` never match the multi-word block rule. -/
theorem multiWordMatch_semi (g : Str) : multiWordMatch (g ++ [';']) = none := by
  cases hpm : multiWordMatch (g ++ [';']) with
  | none => rfl
  | some p =>
    have hlast := multiWordMatch_last _ p hpm
    rw [List.getLast?_append_of_ne_nil _ (by simp)] at hlast
    simp at hlast

/-- A plain block header never matches the pattern-block rule: after the
whitespace there is a brace, not a `<`. -/
theorem patMatch_block (nm : Str) (hnm : tokOK nm = true) :
    patMatch (nm ++ [' ', '\x7b']) = none := by
  obtain ⟨hnne, hntok⟩ := tokOK_spec nm hnm
  have hnp : ∀ c ∈ nm, (fun c => !isSpace c) c = true := by
    intro c hc
    simp [(hntok c hc).1]
  have e1 : (nm ++ [' ', '\x7b']).takeWhile (fun c => !isSpace c) = nm := by
    rw [List.takeWhile_append_of_pos hnp]
    simp [List.takeWhile_cons, isSpace]
  have e2 : (nm ++ [' ', '\x7b']).dropWhile (fun c => !isSpace c) = [' ', '\x7b'] := by
    rw [List.dropWhile_append_of_pos hnp]
    simp [List.dropWhile_cons, isSpace]
  simp only [patMatch, e1, e2]
  rw [if_neg (by simpa using hnne)]
  rw [if_neg (by decide)]
  rw [show List.dropWhile isSpace ([' ', '\x7b'] : Str) = ['\x7b'] from by decide]
  split
  · rename_i r3 heq
    simp at heq
  · rfl

/-- The pattern-block rule accepts a canonical pattern-block header and
returns the name and the bracketed pattern. -/
theorem patMatch_canon (nm w : Str) (hnm : tokOK nm = true) (hw : patOK w = true) :
    patMatch (nm ++ ' ' :: (('<' :: w ++ ['>']) ++ [' ', '\x7b'])) =
      some (nm, '<' :: (w ++ ['>'])) := by
  obtain ⟨hnne, hntok⟩ := tokOK_spec nm hnm
  obtain ⟨hwne, hwtok⟩ := patOK_spec w hw
  have hnp : ∀ c ∈ nm, (fun c => !isSpace c) c = true := by
    intro c hc
    simp [(hntok c hc).1]
  have hwp : ∀ c ∈ w, (fun c => decide (c ≠ '>')) c = true := by
    intro c hc
    simp [(hwtok c hc).1]
  have e1 : (nm ++ ' ' :: (('<' :: w ++ ['>']) ++ [' ', '\x7b'])).takeWhile
      (fun c => !isSpace c) = nm := by
    rw [List.takeWhile_append_of_pos hnp]
    simp [List.takeWhile_cons, isSpace]
  have e2 : (nm ++ ' ' :: (('<' :: w ++ ['>']) ++ [' ', '\x7b'])).dropWhile
      (fun c => !isSpace c) = ' ' :: (('<' :: w ++ ['>']) ++ [' ', '\x7b']) := by
    rw [List.dropWhile_append_of_pos hnp]
    simp [List.dropWhile_cons, isSpace]
  have e3 : (' ' :: (('<' :: w ++ ['>']) ++ [' ', '\x7b'])).takeWhile isSpace
      = [' '] := by
    simp [List.takeWhile_cons, isSpace]
  have e4 : (' ' :: (('<' :: w ++ ['>']) ++ [' ', '\x7b'])).dropWhile isSpace
      = '<' :: ((w ++ ['>']) ++ [' ', '\x7b']) := by
    simp [List.dropWhile_cons, isSpace]
  have e5 : ((w ++ ['>']) ++ [' ', '\x7b']).takeWhile (fun c => decide (c ≠ '>'))
      = w := by
    rw [List.append_assoc, show (['>'] ++ [' ', '\x7b'] : Str) = '>' :: [' ', '\x7b']
      from rfl, List.takeWhile_append_of_pos hwp]
    simp [List.takeWhile_cons]
  have e6 : ((w ++ ['>']) ++ [' ', '\x7b']).dropWhile (fun c => decide (c ≠ '>'))
      = '>' :: [' ', '\x7b'] := by
    rw [List.append_assoc, show (['>'] ++ [' ', '\x7b'] : Str) = '>' :: [' ', '\x7b']
      from rfl, List.dropWhile_append_of_pos hwp]
    simp [List.dropWhile_cons]
  simp only [patMatch, e1, e2, e3, e4, e5, e6]
  rw [if_neg (by simpa using hnne)]
  rw [if_neg (by simp)]
  rw [if_neg (by simpa using hwne)]
  rw [if_neg (by decide), if_pos (by decide)]


theorem canonNode_flag (nm : Str) :
    canonNode ⟨tFlag, some nm, none, []⟩ = [nm ++ [';']] := by
  simp only [canonNode]
  rw [if_neg (by decide), if_neg (by decide), if_neg (by decide)]
  rfl

theorem canonNode_directive (nm vl : Str) :
    canonNode ⟨tDirective, some nm, some vl, []⟩ = [nm ++ ' ' :: vl ++ [';']] := by
  simp only [canonNode]
  rw [if_neg (by decide), if_neg (by decide), if_pos (by decide)]
  rfl

theorem canonNode_block (nm : Str) (cs : List JNode) :
    canonNode ⟨tBlock, some nm, none, cs⟩ =
      (nm ++ [' ', '\x7b']) :: (canonForest cs ++ [['\x7d']]) := by
  simp only [canonNode]
  rw [if_pos (by decide)]
  rfl

theorem canonNode_named (nm vl : Str) (cs : List JNode) :
    canonNode ⟨tNamedBlock, some nm, some vl, cs⟩ =
      (nm ++ ' ' :: vl ++ [' ', '\x7b']) :: (canonForest cs ++ [['\x7d']]) := by
  simp only [canonNode]
  rw [if_neg (by decide), if_pos (by decide)]
  rfl

theorem canonNode_pattern (nm vl : Str) (cs : List JNode) :
    canonNode ⟨tPatternBlock, some nm, some vl, cs⟩ =
      (nm ++ ' ' :: vl ++ [' ', '\x7b']) :: (canonForest cs ++ [['\x7d']]) := by
  simp only [canonNode]
  rw [if_neg (by decide), if_pos (by decide)]
  rfl

/-- Case analysis on a well-formed node. -/
theorem wfNode_cases (n : JNode) (h : wfNode n = true) :
    (∃ nm, n = ⟨tFlag, some nm, none, []⟩ ∧ tokOK nm = true) ∨
    (∃ nm vl, n = ⟨tDirective, some nm, some vl, []⟩ ∧ tokOK nm = true ∧
      valOK vl = true) ∨
    (∃ nm cs, n = ⟨tBlock, some nm, none, cs⟩ ∧ tokOK nm = true ∧
      wfList cs = true) ∨
    (∃ nm vl cs, n = ⟨tNamedBlock, some nm, some vl, cs⟩ ∧ tokOK nm = true ∧
      valOK vl = true ∧ patMatch (nm ++ ' ' :: vl ++ [' ', '\x7b']) = none ∧
      wfList cs = true) ∨
    (∃ nm w cs, n = ⟨tPatternBlock, some nm, some ('<' :: w ++ ['>']), cs⟩ ∧
      tokOK nm = true ∧ patOK w = true ∧ wfList cs = true) := by
  obtain ⟨ty, nm, vl, cs⟩ := n
  simp only [wfNode, Bool.or_eq_true, Bool.and_eq_true, beq_iff_eq] at h
  rcases h with (((⟨hty, h2⟩ | ⟨hty, h2⟩) | ⟨hty, h2⟩) | ⟨hty, h2⟩) | ⟨hty, h2⟩
  · subst hty
    cases nm with
    | none => simp at h2
    | some s =>
      cases vl with
      | some v => simp at h2
      | none =>
        cases cs with
        | cons c cs' => simp at h2
        | nil => exact Or.inl ⟨s, rfl, h2⟩
  · subst hty
    cases nm with
    | none => simp at h2
    | some s =>
      cases vl with
      | none => simp at h2
      | some v =>
        cases cs with
        | cons c cs' => simp at h2
        | nil =>
          simp only [Bool.and_eq_true] at h2
          exact Or.inr (Or.inl ⟨s, v, rfl, h2.1, h2.2⟩)
  · subst hty
    cases nm with
    | none => simp at h2
    | some s =>
      cases vl with
      | some v => simp at h2
      | none =>
        simp only [Bool.and_eq_true] at h2
        exact Or.inr (Or.inr (Or.inl ⟨s, cs, rfl, h2.1, h2.2⟩))
  · subst hty
    cases nm with
    | none => simp at h2
    | some s =>
      cases vl with
      | none => simp at h2
      | some v =>
        simp only [Bool.and_eq_true, Option.isNone_iff_eq_none] at h2
        exact Or.inr (Or.inr (Or.inr (Or.inl
          ⟨s, v, cs, rfl, h2.1.1.1, h2.1.1.2, h2.1.2, h2.2⟩)))
  · subst hty
    cases nm with
    | none => simp at h2
    | some s =>
      cases vl with
      | none => simp at h2
      | some v =>
        simp only [Bool.and_eq_true] at h2
        obtain ⟨w, hvw, hw⟩ := patValOK_spec v h2.1.2
        exact Or.inr (Or.inr (Or.inr (Or.inr
          ⟨s, w, cs, by rw [← hvw], h2.1.1, hw, h2.2⟩)))


theorem nodeToConfig_flag (nm : Str) (d : Nat) :
    nodeToConfig ⟨tFlag, some nm, none, []⟩ d = indentStr d ++ nm ++ [';'] := by
  simp only [nodeToConfig]
  rw [if_neg (by decide), if_neg (by decide), if_neg (by decide), if_neg (by decide),
    if_pos (by decide)]
  rfl

theorem nodeToConfig_directive (nm vl : Str) (d : Nat) :
    nodeToConfig ⟨tDirective, some nm, some vl, []⟩ d =
      indentStr d ++ nm ++ ' ' :: vl ++ [';'] := by
  simp only [nodeToConfig]
  rw [if_neg (by decide), if_neg (by decide), if_neg (by decide), if_pos (by decide)]
  rfl

theorem nodeToConfig_block (nm : Str) (cs : List JNode) (d : Nat) :
    nodeToConfig ⟨tBlock, some nm, none, cs⟩ d =
      indentStr d ++ nm ++ (" \x7b\n").data ++
        (if (joinSep '\n' (nodeToConfigList cs (d + 1))).isEmpty then []
         else joinSep '\n' (nodeToConfigList cs (d + 1)) ++ ['\n']) ++
        indentStr d ++ ['\x7d'] := by
  simp only [nodeToConfig]
  rw [if_neg (by decide), if_pos (by decide)]
  rfl

theorem nodeToConfig_named (nm vl : Str) (cs : List JNode) (d : Nat) :
    nodeToConfig ⟨tNamedBlock, some nm, some vl, cs⟩ d =
      indentStr d ++ nm ++ ' ' :: vl ++ (" \x7b\n").data ++
        (if (joinSep '\n' (nodeToConfigList cs (d + 1))).isEmpty then []
         else joinSep '\n' (nodeToConfigList cs (d + 1)) ++ ['\n']) ++
        indentStr d ++ ['\x7d'] := by
  simp only [nodeToConfig]
  rw [if_neg (by decide), if_neg (by decide), if_pos (by decide)]
  rfl

theorem nodeToConfig_pattern (nm vl : Str) (cs : List JNode) (d : Nat) :
    nodeToConfig ⟨tPatternBlock, some nm, some vl, cs⟩ d =
      indentStr d ++ nm ++ ' ' :: vl ++ (" \x7b\n").data ++
        (if (joinSep '\n' (nodeToConfigList cs (d + 1))).isEmpty then []
         else joinSep '\n' (nodeToConfigList cs (d + 1)) ++ ['\n']) ++
        indentStr d ++ ['\x7d'] := by
  simp only [nodeToConfig]
  rw [if_neg (by decide), if_neg (by decide), if_pos (by decide)]
  rfl

/-- Preprocessing a token-headed content line under its indentation. -/
theorem processLine_tok (d : Nat) (t r : Str) (c : Char) (ht : tokOK t = true)
    (hc : isSpace c = false) (hcz : c ≠ '#') (hr : ∀ ch ∈ r, ch ≠ '#') :
    processLine (indentStr d ++ (t ++ r ++ [c])) = t ++ r ++ [c] := by
  obtain ⟨htne, httok⟩ := tokOK_spec t ht
  have hleft : trimLeft ((t ++ r) ++ [c]) = (t ++ r) ++ [c] := by
    have e : (t ++ r) ++ [c] = t ++ (r ++ [c]) := by simp
    rw [e]
    exact trimLeft_tok_append t (r ++ [c]) htne (fun x hx => (httok x hx).1)
  have hhash : ∀ ch ∈ (t ++ r) ++ [c], ch ≠ '#' := by
    intro ch hch
    rcases List.mem_append.mp hch with h1 | h2
    · rcases List.mem_append.mp h1 with h3 | h4
      · exact (httok ch h3).2
      · exact hr ch h4
    · have he : ch = c := by simpa using h2
      exact he ▸ hcz
  exact processLine_canon d (t ++ r) c hc hleft hhash

/-- Preprocessing a closing-brace line. -/
theorem processLine_close (d : Nat) :
    processLine (indentStr d ++ ['\x7d']) = ['\x7d'] := by
  have := processLine_canon d [] '\x7d' (by decide) (by decide) (by decide)
  simpa using this

theorem nl_not_mem (d : Nat) (s : Str) (hs : '\n' ∉ s) :
    '\n' ∉ indentStr d ++ s := by
  intro h
  rcases List.mem_append.mp h with h1 | h2
  · have := List.eq_of_mem_replicate h1
    simp at this
  · exact hs h2

theorem nl_not_mem_tok (t : Str) (htok : ∀ c ∈ t, isSpace c = false) :
    '\n' ∉ t := by
  intro h
  have := htok _ h
  simp [isSpace] at this


/-- Splitting and preprocessing the serialized form of one block-shaped
node: the header line, the children's lines, and the closing brace. -/
theorem split_wrap (d : Nat) (hd : Str) (cc : Str) (canonKids : List Str)
    (hnl : '\n' ∉ hd)
    (hph : processLine (indentStr d ++ hd) = hd)
    (hkids : (cc = [] ∧ canonKids = []) ∨
      (cc ≠ [] ∧ (splitOnChar '\n' cc).map processLine = canonKids)) :
    (splitOnChar '\n' (indentStr d ++ hd ++ ['\n'] ++
        (if cc.isEmpty then [] else cc ++ ['\n']) ++ indentStr d ++ ['\x7d'])).map
      processLine = hd :: (canonKids ++ [['\x7d']]) := by
  have hnl1 : '\n' ∉ indentStr d ++ hd := nl_not_mem d hd hnl
  have hnl2 : '\n' ∉ indentStr d ++ ['\x7d'] := nl_not_mem d ['\x7d'] (by decide)
  rcases hkids with ⟨hcc, hck⟩ | ⟨hcc, hck⟩
  · subst hcc hck
    rw [if_pos (by decide)]
    have he : indentStr d ++ hd ++ ['\n'] ++ [] ++ indentStr d ++ ['\x7d']
        = (indentStr d ++ hd) ++ '\n' :: (indentStr d ++ ['\x7d']) := by
      simp
    rw [he, splitOnChar_append, splitOnChar_of_not_mem _ _ hnl1,
      splitOnChar_of_not_mem _ _ hnl2]
    simp [hph, processLine_close]
  · rw [if_neg (by simpa using hcc)]
    have he : indentStr d ++ hd ++ ['\n'] ++ (cc ++ ['\n']) ++ indentStr d ++ ['\x7d']
        = (indentStr d ++ hd) ++ '\n' :: (cc ++ '\n' :: (indentStr d ++ ['\x7d'])) := by
      simp
    rw [he, splitOnChar_append, splitOnChar_append,
      splitOnChar_of_not_mem _ _ hnl1, splitOnChar_of_not_mem _ _ hnl2]
    simp [hph, processLine_close, hck]

theorem nl_not_mem_indent (d : Nat) : '\n' ∉ indentStr d := by
  intro h
  exact absurd (List.eq_of_mem_replicate h) (by decide)

mutual

/-- The serialization of a well-formed node splits on line feeds and
preprocesses to exactly its canonical lines; it is never empty. -/
theorem splitNode : ∀ (n : JNode), wfNode n = true → ∀ (d : Nat),
    (splitOnChar '\n' (nodeToConfig n d)).map processLine = canonNode n ∧
    nodeToConfig n d ≠ []
  | n, h, d => by
    rcases wfNode_cases n h with ⟨nm, hn, ht⟩ | ⟨nm, vl, hn, ht, hv⟩ |
      ⟨nm, cs, hn, ht, hcs⟩ | ⟨nm, vl, cs, hn, ht, hv, hpm, hcs⟩ |
      ⟨nm, w, cs, hn, ht, hw, hcs⟩
    · subst hn
      obtain ⟨htne, httok⟩ := tokOK_spec nm ht
      rw [nodeToConfig_flag, canonNode_flag]
      constructor
      · have hnl : '\n' ∉ indentStr d ++ nm ++ [';'] := by
          intro hmem
          rcases List.mem_append.mp hmem with h1 | h2
          · rcases List.mem_append.mp h1 with h3 | h4
            · exact nl_not_mem_indent d h3
            · exact nl_not_mem_tok nm (fun c hc => (httok c hc).1) h4
          · exact absurd h2 (by decide)
        rw [splitOnChar_of_not_mem _ _ hnl]
        have hp := processLine_tok d nm [] ';' ht (by decide) (by decide) (by simp)
        simpa using hp
      · simp
    · subst hn
      obtain ⟨htne, httok⟩ := tokOK_spec nm ht
      obtain ⟨hvne, hvjoin, hvchars⟩ := valOK_spec vl hv
      rw [nodeToConfig_directive, canonNode_directive]
      constructor
      · have hnl : '\n' ∉ indentStr d ++ nm ++ ' ' :: vl ++ [';'] := by
          intro hmem
          rcases List.mem_append.mp hmem with h1 | h2
          · rcases List.mem_append.mp h1 with h3 | h4
            · rcases List.mem_append.mp h3 with h5 | h6
              · exact nl_not_mem_indent d h5
              · exact nl_not_mem_tok nm (fun c hc => (httok c hc).1) h6
            · rcases List.mem_cons.mp h4 with h5 | h6
              · exact absurd h5 (by decide)
              · exact valOK_no_nl vl hv h6
          · exact absurd h2 (by decide)
        rw [splitOnChar_of_not_mem _ _ hnl]
        have hp := processLine_tok d nm (' ' :: vl) ';' ht (by decide) (by decide)
          (by
            intro ch hch
            rcases List.mem_cons.mp hch with h3 | h4
            · subst h3; decide
            · exact (hvchars ch h4).2)
        simpa using hp
      · simp
    · subst hn
      obtain ⟨htne, httok⟩ := tokOK_spec nm ht
      rw [canonNode_block]
      have hnl : '\n' ∉ nm ++ [' ', '\x7b'] := by
        intro hmem
        rcases List.mem_append.mp hmem with h1 | h2
        · exact nl_not_mem_tok nm (fun c hc => (httok c hc).1) h1
        · exact absurd h2 (by decide)
      have hph : processLine (indentStr d ++ (nm ++ [' ', '\x7b'])) = nm ++ [' ', '\x7b'] := by
        have hp := processLine_tok d nm [' '] '\x7b' ht (by decide) (by decide) (by decide)
        simpa using hp
      have he : nodeToConfig ⟨tBlock, some nm, none, cs⟩ d
          = indentStr d ++ (nm ++ [' ', '\x7b']) ++ ['\n'] ++
            (if (joinSep '\n' (nodeToConfigList cs (d + 1))).isEmpty then []
             else joinSep '\n' (nodeToConfigList cs (d + 1)) ++ ['\n']) ++
            indentStr d ++ ['\x7d'] := by
        rw [nodeToConfig_block]
        simp [show (" \x7b\n").data = ([' ', '\x7b', '\n'] : Str) from rfl]
      constructor
      · rw [he]
        cases cs with
        | nil =>
          exact split_wrap d (nm ++ [' ', '\x7b']) _ [] hnl hph (Or.inl ⟨rfl, rfl⟩)
        | cons c1 cs1 =>
          obtain ⟨hmap, hne2⟩ := splitForest (c1 :: cs1) hcs (by simp) (d + 1)
          exact split_wrap d (nm ++ [' ', '\x7b']) _ _ hnl hph (Or.inr ⟨hne2, hmap⟩)
      · rw [he]
        simp
    · subst hn
      obtain ⟨htne, httok⟩ := tokOK_spec nm ht
      obtain ⟨hvne, hvjoin, hvchars⟩ := valOK_spec vl hv
      rw [canonNode_named]
      have hnl : '\n' ∉ nm ++ ' ' :: vl ++ [' ', '\x7b'] := by
        intro hmem
        rcases List.mem_append.mp hmem with h1 | h2
        · rcases List.mem_append.mp h1 with h3 | h4
          · exact nl_not_mem_tok nm (fun c hc => (httok c hc).1) h3
          · rcases List.mem_cons.mp h4 with h5 | h6
            · exact absurd h5 (by decide)
            · exact valOK_no_nl vl hv h6
        · exact absurd h2 (by decide)
      have hph : processLine (indentStr d ++ (nm ++ ' ' :: vl ++ [' ', '\x7b']))
          = nm ++ ' ' :: vl ++ [' ', '\x7b'] := by
        have hp := processLine_tok d nm (' ' :: (vl ++ [' '])) '\x7b' ht (by decide)
          (by decide)
          (by
            intro ch hch
            rcases List.mem_cons.mp hch with h3 | h4
            · subst h3; decide
            · rcases List.mem_append.mp h4 with h5 | h6
              · exact (hvchars ch h5).2
              · have h7 := List.mem_singleton.mp h6
                subst h7; decide)
        simpa using hp
      have he : nodeToConfig ⟨tNamedBlock, some nm, some vl, cs⟩ d
          = indentStr d ++ (nm ++ ' ' :: vl ++ [' ', '\x7b']) ++ ['\n'] ++
            (if (joinSep '\n' (nodeToConfigList cs (d + 1))).isEmpty then []
             else joinSep '\n' (nodeToConfigList cs (d + 1)) ++ ['\n']) ++
            indentStr d ++ ['\x7d'] := by
        rw [nodeToConfig_named]
        simp [show (" \x7b\n").data = ([' ', '\x7b', '\n'] : Str) from rfl]
      constructor
      · rw [he]
        cases cs with
        | nil =>
          exact split_wrap d (nm ++ ' ' :: vl ++ [' ', '\x7b']) _ [] hnl hph
            (Or.inl ⟨rfl, rfl⟩)
        | cons c1 cs1 =>
          obtain ⟨hmap, hne2⟩ := splitForest (c1 :: cs1) hcs (by simp) (d + 1)
          exact split_wrap d (nm ++ ' ' :: vl ++ [' ', '\x7b']) _ _ hnl hph
            (Or.inr ⟨hne2, hmap⟩)
      · rw [he]
        simp
    · subst hn
      obtain ⟨htne, httok⟩ := tokOK_spec nm ht
      obtain ⟨hwne, hwchars⟩ := patOK_spec w hw
      rw [canonNode_pattern]
      have hvnl : '\n' ∉ ('<' :: w ++ ['>'] : Str) := by
        intro hmem
        rcases List.mem_cons.mp hmem with h1 | h2
        · exact absurd h1 (by decide)
        · rcases List.mem_append.mp h2 with h3 | h4
          · exact (hwchars _ h3).2.1 rfl
          · exact absurd h4 (by decide)
      have hvhash : ∀ ch ∈ ('<' :: w ++ ['>'] : Str), ch ≠ '#' := by
        intro ch hch
        rcases List.mem_cons.mp hch with h1 | h2
        · subst h1; decide
        · rcases List.mem_append.mp h2 with h3 | h4
          · exact (hwchars _ h3).2.2
          · have h5 := List.mem_singleton.mp h4
            subst h5; decide
      have hnl : '\n' ∉ nm ++ ' ' :: ('<' :: w ++ ['>']) ++ [' ', '\x7b'] := by
        intro hmem
        rcases List.mem_append.mp hmem with h1 | h2
        · rcases List.mem_append.mp h1 with h3 | h4
          · exact nl_not_mem_tok nm (fun c hc => (httok c hc).1) h3
          · rcases List.mem_cons.mp h4 with h5 | h6
            · exact absurd h5 (by decide)
            · exact hvnl h6
        · exact absurd h2 (by decide)
      have hph : processLine
            (indentStr d ++ (nm ++ ' ' :: ('<' :: w ++ ['>']) ++ [' ', '\x7b']))
          = nm ++ ' ' :: ('<' :: w ++ ['>']) ++ [' ', '\x7b'] := by
        have hp := processLine_tok d nm (' ' :: (('<' :: w ++ ['>']) ++ [' '])) '\x7b'
          ht (by decide) (by decide)
          (by
            intro ch hch
            rcases List.mem_cons.mp hch with h3 | h4
            · subst h3; decide
            · rcases List.mem_append.mp h4 with h5 | h6
              · exact hvhash ch h5
              · have h7 := List.mem_singleton.mp h6
                subst h7; decide)
        simpa using hp
      have he : nodeToConfig ⟨tPatternBlock, some nm, some ('<' :: w ++ ['>']), cs⟩ d
          = indentStr d ++ (nm ++ ' ' :: ('<' :: w ++ ['>']) ++ [' ', '\x7b']) ++ ['\n'] ++
            (if (joinSep '\n' (nodeToConfigList cs (d + 1))).isEmpty then []
             else joinSep '\n' (nodeToConfigList cs (d + 1)) ++ ['\n']) ++
            indentStr d ++ ['\x7d'] := by
        rw [nodeToConfig_pattern]
        simp [show (" \x7b\n").data = ([' ', '\x7b', '\n'] : Str) from rfl]
      constructor
      · rw [he]
        cases cs with
        | nil =>
          exact split_wrap d (nm ++ ' ' :: ('<' :: w ++ ['>']) ++ [' ', '\x7b']) _ []
            hnl hph (Or.inl ⟨rfl, rfl⟩)
        | cons c1 cs1 =>
          obtain ⟨hmap, hne2⟩ := splitForest (c1 :: cs1) hcs (by simp) (d + 1)
          exact split_wrap d (nm ++ ' ' :: ('<' :: w ++ ['>']) ++ [' ', '\x7b']) _ _
            hnl hph (Or.inr ⟨hne2, hmap⟩)
      · rw [he]
        simp
  termination_by n _ _ => sizeOf n

/-- The joined serializations of a nonempty well-formed forest split and
preprocess to the forest's canonical lines; the join is never empty. -/
theorem splitForest : ∀ (ns : List JNode), wfList ns = true → ns ≠ [] → ∀ (d : Nat),
    (splitOnChar '\n' (joinSep '\n' (nodeToConfigList ns d))).map processLine
      = canonForest ns ∧ joinSep '\n' (nodeToConfigList ns d) ≠ []
  | [], _, hne, _ => absurd rfl hne
  | n :: ns', h, _, d => by
    have hh : wfNode n = true ∧ wfList ns' = true := by
      simpa [wfList, Bool.and_eq_true] using h
    cases ns' with
    | nil =>
      obtain ⟨hmap, hne1⟩ := splitNode n hh.1 d
      have e : joinSep '\n' (nodeToConfigList [n] d) = nodeToConfig n d := rfl
      constructor
      · rw [e, hmap]
        simp [canonForest]
      · rw [e]
        exact hne1
    | cons n2 ns2 =>
      obtain ⟨hmap1, hne1⟩ := splitNode n hh.1 d
      obtain ⟨hmap2, hne2⟩ := splitForest (n2 :: ns2) hh.2 (by simp) d
      have e : joinSep '\n' (nodeToConfigList (n :: n2 :: ns2) d)
          = nodeToConfig n d ++ '\n' :: joinSep '\n' (nodeToConfigList (n2 :: ns2) d) := rfl
      constructor
      · rw [e, splitOnChar_append, List.map_append, hmap1, hmap2]
        rfl
      · rw [e]
        simp
  termination_by ns _ _ _ => sizeOf ns

end


mutual

/-- Canonical lines of a well-formed node are nonempty. -/
theorem canonNode_lines_ne : ∀ (n : JNode), wfNode n = true →
    ∀ l ∈ canonNode n, l ≠ []
  | n, h => by
    rcases wfNode_cases n h with ⟨nm, hn, ht⟩ | ⟨nm, vl, hn, ht, hv⟩ |
      ⟨nm, cs, hn, ht, hcs⟩ | ⟨nm, vl, cs, hn, ht, hv, hpm, hcs⟩ |
      ⟨nm, w, cs, hn, ht, hw, hcs⟩
    · subst hn
      rw [canonNode_flag]
      intro l hl
      rw [List.mem_singleton.mp hl]
      simp
    · subst hn
      rw [canonNode_directive]
      intro l hl
      rw [List.mem_singleton.mp hl]
      simp
    · subst hn
      rw [canonNode_block]
      intro l hl
      rcases List.mem_cons.mp hl with h1 | h2
      · rw [h1]; simp
      · rcases List.mem_append.mp h2 with h3 | h4
        · exact canonForest_lines_ne cs hcs l h3
        · rw [List.mem_singleton.mp h4]; simp
    · subst hn
      rw [canonNode_named]
      intro l hl
      rcases List.mem_cons.mp hl with h1 | h2
      · rw [h1]; simp
      · rcases List.mem_append.mp h2 with h3 | h4
        · exact canonForest_lines_ne cs hcs l h3
        · rw [List.mem_singleton.mp h4]; simp
    · subst hn
      rw [canonNode_pattern]
      intro l hl
      rcases List.mem_cons.mp hl with h1 | h2
      · rw [h1]; simp
      · rcases List.mem_append.mp h2 with h3 | h4
        · exact canonForest_lines_ne cs hcs l h3
        · rw [List.mem_singleton.mp h4]; simp
  termination_by n _ => sizeOf n

/-- Canonical lines of a well-formed forest are nonempty. -/
theorem canonForest_lines_ne : ∀ (ns : List JNode), wfList ns = true →
    ∀ l ∈ canonForest ns, l ≠ []
  | [], _ => by simp [canonForest]
  | n :: ns', h => by
    have hh : wfNode n = true ∧ wfList ns' = true := by
      simpa [wfList, Bool.and_eq_true] using h
    intro l hl
    rcases List.mem_append.mp hl with h1 | h2
    · exact canonNode_lines_ne n hh.1 l h1
    · exact canonForest_lines_ne ns' hh.2 l h2
  termination_by ns _ => sizeOf ns

end

/-- Preprocessing the serialized form of a well-formed root gives exactly
the canonical lines of its children. -/
theorem preprocess_canon (cs : List JNode) (hcs : wfList cs = true) :
    preprocess (astToConfig ⟨tRoot, none, none, cs⟩) = canonForest cs := by
  have e : astToConfig ⟨tRoot, none, none, cs⟩
      = joinSep '\n' (nodeToConfigList cs 0) := by
    simp only [astToConfig, nodeToConfig]
    rw [if_pos trivial]
  cases cs with
  | nil =>
    rw [e]
    decide
  | cons c1 cs1 =>
    obtain ⟨hmap, hne⟩ := splitForest (c1 :: cs1) hcs (by simp) 0
    rw [e]
    show (((splitOnChar '\n' (joinSep '\n' (nodeToConfigList (c1 :: cs1) 0))).map
        (fun l => trim (stripComment l))).filter (fun l => !l.isEmpty))
      = canonForest (c1 :: cs1)
    rw [show (fun l => trim (stripComment l)) = processLine from rfl, hmap]
    refine List.filter_eq_self.mpr ?_
    intro l hl
    have := canonForest_lines_ne (c1 :: cs1) hcs l hl
    simpa using this


theorem trim_tok (t : Str) (hne : t ≠ []) (hts : ∀ c ∈ t, isSpace c = false) :
    trim t = t := by
  have h1 : trimLeft t = t := by
    cases t with
    | nil => rfl
    | cons c cs =>
      simp only [trimLeft, List.dropWhile_cons, hts c (List.mem_cons_self c cs),
        Bool.false_eq_true, if_false]
  rw [trim, h1]
  conv_lhs => rw [← List.dropLast_append_getLast hne]
  rw [trimRight_concat _ _ (hts _ (List.getLast_mem hne))]
  exact List.dropLast_append_getLast hne

theorem trim_tok_val (t vl : Str) (ht : tokOK t = true) (hv : valOK vl = true) :
    trim (t ++ ' ' :: vl) = t ++ ' ' :: vl := by
  obtain ⟨htne, httok⟩ := tokOK_spec t ht
  obtain ⟨y, c, hyc, hc⟩ := valOK_concat vl hv
  have h1 : trimLeft (t ++ ' ' :: vl) = t ++ ' ' :: vl :=
    trimLeft_tok_append t (' ' :: vl) htne (fun x hx => (httok x hx).1)
  have he : t ++ ' ' :: vl = (t ++ ' ' :: y) ++ [c] := by
    rw [hyc]
    simp
  rw [trim, h1, he, trimRight_concat _ _ hc]

/-- A nonempty-token line that ends in a character other than `\x7d` is
not the closing-brace line. -/
theorem ne_close (y : Str) (c : Char) (hc : c ≠ '\x7d') : y ++ [c] ≠ ['\x7d'] := by
  intro h
  have := congrArg List.getLast? h
  rw [List.getLast?_append_of_ne_nil _ (by simp)] at this
  simp only [List.getLast?_singleton] at this
  exact hc (Option.some_injective _ this)

theorem drop_shift (lines : List Str) (i : Nat) (A B : List Str)
    (h : lines.drop i = A ++ B) : lines.drop (i + A.length) = B := by
  have h2 := congrArg (List.drop A.length) h
  rw [List.drop_drop, List.drop_left] at h2
  exact h2

/-- A token contains no literal space. -/
theorem tok_contains_space (t : Str) (hts : ∀ c ∈ t, isSpace c = false) :
    t.contains ' ' = false := by
  simp only [List.contains, List.elem_eq_mem, decide_eq_false_iff_not]
  intro h
  have := hts ' ' h
  simp [isSpace] at this

/-- `mkLeaf` on a plain token yields a flag. -/
theorem mkLeaf_flag (t : Str) (ht : tokOK t = true) :
    mkLeaf t = ⟨tFlag, some t, none, []⟩ := by
  obtain ⟨htne, httok⟩ := tokOK_spec t ht
  simp only [mkLeaf, tok_contains_space t (fun c hc => (httok c hc).1),
    Bool.false_eq_true, if_false]

/-- `mkLeaf` on a canonical directive statement yields the directive. -/
theorem mkLeaf_directive (t vl : Str) (ht : tokOK t = true) (hv : valOK vl = true) :
    mkLeaf (t ++ ' ' :: vl) = ⟨tDirective, some t, some vl, []⟩ := by
  obtain ⟨htne, httok⟩ := tokOK_spec t ht
  obtain ⟨hvne, hvjoin, hvchars⟩ := valOK_spec vl hv
  have hcont : (t ++ ' ' :: vl).contains ' ' = true := by
    simp only [List.contains, List.elem_eq_mem, decide_eq_true_eq]
    exact List.mem_append.mpr (Or.inr (List.mem_cons_self _ _))
  have hwords : words (t ++ ' ' :: vl) = t :: words vl :=
    words_tok_cons t vl htne (fun x hx => (httok x hx).1)
  cases hwv : words vl with
  | nil => exact absurd hwv hvne
  | cons v1 vrest =>
    rw [hwv] at hwords
    simp only [mkLeaf, hcont, if_true, hwords]
    have hval : (joinSp (v1 :: vrest)).filter (fun c => c ≠ '"') = vl := by
      rw [← hwv, ← hvjoin]
      refine List.filter_eq_self.mpr ?_
      intro c hc
      simpa using (hvchars c hc).1
    rw [hval]

/-- `mkBlockHeader` on a plain token yields the block builder. -/
theorem mkBlockHeader_tok (t : Str) (ht : tokOK t = true) :
    mkBlockHeader t = (t, fun cs => ⟨tBlock, some t, none, cs⟩) := by
  obtain ⟨htne, httok⟩ := tokOK_spec t ht
  have h1 : trim t = t := trim_tok t htne (fun x hx => (httok x hx).1)
  have h2 : words t = [t] := words_tok t htne (fun x hx => (httok x hx).1)
  simp only [mkBlockHeader, h1, h2]

/-- `mkBlockHeader` on a canonical two-token-or-more header yields the
named-block builder with the value rejoined. -/
theorem mkBlockHeader_val (t vl : Str) (ht : tokOK t = true) (hv : valOK vl = true) :
    mkBlockHeader (t ++ ' ' :: vl)
      = (t, fun cs => ⟨tNamedBlock, some t, some vl, cs⟩) := by
  obtain ⟨htne, httok⟩ := tokOK_spec t ht
  obtain ⟨hvne, hvjoin, hvchars⟩ := valOK_spec vl hv
  have h1 : trim (t ++ ' ' :: vl) = t ++ ' ' :: vl := trim_tok_val t vl ht hv
  have hwords : words (t ++ ' ' :: vl) = t :: words vl :=
    words_tok_cons t vl htne (fun x hx => (httok x hx).1)
  cases hwv : words vl with
  | nil => exact absurd hwv hvne
  | cons v1 vrest =>
    rw [hwv] at hwords
    simp only [mkBlockHeader, h1, hwords]
    rw [show joinSp (v1 :: vrest) = vl from by rw [← hwv, ← hvjoin]]


/-- One `parseBlock` step on a leaf line. -/
theorem parseBF_leaf_step (lines : List Str) (i f : Nat) (g : Str) (node : JNode)
    (hlt : i < lines.length) (hline : lines.get ⟨i, hlt⟩ = g ++ [';'])
    (hgne : g ≠ []) (hmk : mkLeaf (trim g) = node) :
    parseBF (f + 1) lines i = ⟨node :: (parseBF f lines (i + 1)).children,
      (parseBF f lines (i + 1)).diags, (parseBF f lines (i + 1)).next⟩ := by
  rw [parseBF, dif_pos hlt, hline]
  rw [if_neg (ne_close g ';' (by decide))]
  rw [patMatch_semi g]
  simp only
  rw [multiWordMatch_semi g]
  simp only
  rw [leafMatch_concat g hgne]
  simp only
  rw [hmk]

/-- One `parseBlock` step on a multi-word block header line. -/
theorem parseBF_block_step (lines : List Str) (i f : Nat) (hd : Str)
    (builder : Str × (List JNode → JNode))
    (hlt : i < lines.length) (hline : lines.get ⟨i, hlt⟩ = hd ++ [' ', '\x7b'])
    (hdne : hd ≠ []) (hpm : patMatch (hd ++ [' ', '\x7b']) = none)
    (hmk : mkBlockHeader hd = builder) :
    parseBF (f + 1) lines i =
      ⟨builder.2 (parseBF f lines (i + 1)).children ::
         (parseBF f lines ((parseBF f lines (i + 1)).next)).children,
       (parseBF f lines (i + 1)).diags ++
         (parseBF f lines ((parseBF f lines (i + 1)).next)).diags,
       (parseBF f lines ((parseBF f lines (i + 1)).next)).next⟩ := by
  have hnc : hd ++ [' ', '\x7b'] ≠ ['\x7d'] := by
    have he : hd ++ [' ', '\x7b'] = (hd ++ [' ']) ++ ['\x7b'] := by simp
    rw [he]
    exact ne_close _ '\x7b' (by decide)
  rw [parseBF, dif_pos hlt, hline]
  rw [if_neg hnc]
  rw [hpm]
  rw [multiWordMatch_concat hd hdne]
  simp only
  rw [hmk]

/-- One `parseBlock` step on a pattern-block header line. -/
theorem parseBF_pat_step (lines : List Str) (i f : Nat) (line : Str) (p : Str × Str)
    (hlt : i < lines.length) (hline : lines.get ⟨i, hlt⟩ = line)
    (hnc : line ≠ ['\x7d']) (hpm : patMatch line = some p) :
    parseBF (f + 1) lines i =
      ⟨⟨tPatternBlock, some p.1, some p.2, (parseBF f lines (i + 1)).children⟩ ::
         (parseBF f lines ((parseBF f lines (i + 1)).next)).children,
       (parseBF f lines (i + 1)).diags ++
         (parseBF f lines ((parseBF f lines (i + 1)).next)).diags,
       (parseBF f lines ((parseBF f lines (i + 1)).next)).next⟩ := by
  rw [parseBF, dif_pos hlt, hline]
  rw [if_neg hnc]
  rw [hpm]


/-- `parseBlock` over the canonical lines of a well-formed forest: it
reconstructs exactly the forest, emits no diagnostics, and stops at the
end of the line array (top level) or just past a closing brace (inside a
block). -/
theorem parseBF_go : ∀ (ns : List JNode), wfList ns = true →
    ∀ (lines : List Str) (i : Nat) (tail : List Str) (fuel : Nat),
    lines.drop i = canonForest ns ++ tail →
    i ≤ lines.length →
    2 * (canonForest ns).length + 1 ≤ fuel →
    ((tail = [] → parseBF fuel lines i = ⟨ns, [], lines.length⟩) ∧
     (∀ rest, tail = ['\x7d'] :: rest →
       parseBF fuel lines i = ⟨ns, [], i + (canonForest ns).length + 1⟩))
  | [], _, lines, i, tail, fuel => by
    intro hdrop hile hfuel
    cases fuel with
    | zero => omega
    | succ f =>
      simp only [canonForest, List.nil_append] at hdrop
      constructor
      · intro htail
        subst htail
        have hlen0 := congrArg List.length hdrop
        rw [List.length_drop] at hlen0
        simp only [List.length_nil] at hlen0
        have hieq : i = lines.length := by omega
        rw [parseBF, dif_neg (by omega)]
        rw [hieq]
      · intro rest htail
        subst htail
        have hlt : i < lines.length := by
          by_contra hge
          rw [List.drop_eq_nil_of_le (by omega)] at hdrop
          exact List.noConfusion hdrop
        have hcons := List.drop_eq_getElem_cons hlt
        rw [hdrop] at hcons
        injection hcons with hline hrest
        rw [parseBF, dif_pos hlt]
        rw [show lines.get ⟨i, hlt⟩ = ['\x7d'] from by rw [List.get_eq_getElem, ← hline]]
        rw [if_pos rfl]
        simp [canonForest]
  | n :: ns', h, lines, i, tail, fuel => by
    intro hdrop hile hfuel
    have hh : wfNode n = true ∧ wfList ns' = true := by
      simpa [wfList, Bool.and_eq_true] using h
    cases fuel with
    | zero => omega
    | succ f =>
    rcases wfNode_cases n hh.1 with ⟨nm, hn, ht⟩ | ⟨nm, vl, hn, ht, hv⟩ |
      ⟨nm, cs, hn, ht, hcs⟩ | ⟨nm, vl, cs, hn, ht, hv, hpm, hcs⟩ |
      ⟨nm, w, cs, hn, ht, hw, hcs⟩
    · subst hn
      obtain ⟨htne, httok⟩ := tokOK_spec nm ht
      have hcf : canonForest (⟨tFlag, some nm, none, []⟩ :: ns')
          = (nm ++ [';']) :: canonForest ns' := by
        rw [show canonForest (⟨tFlag, some nm, none, []⟩ :: ns')
            = canonNode ⟨tFlag, some nm, none, []⟩ ++ canonForest ns' from rfl,
          canonNode_flag]
        rfl
      have hdrop1 : lines.drop i = (nm ++ [';']) :: (canonForest ns' ++ tail) := by
        rw [hdrop, hcf]
        rfl
      have hlt : i < lines.length := by
        by_contra hge
        rw [List.drop_eq_nil_of_le (by omega)] at hdrop1
        exact List.noConfusion hdrop1
      have hcons := List.drop_eq_getElem_cons hlt
      rw [hdrop1] at hcons
      injection hcons with hline hrest
      have hstep := parseBF_leaf_step lines i f nm ⟨tFlag, some nm, none, []⟩ hlt
        (by rw [List.get_eq_getElem, ← hline]) htne
        (by rw [trim_tok nm htne (fun x hx => (httok x hx).1)]
            exact mkLeaf_flag nm ht)
      have hlen1 : (canonForest (⟨tFlag, some nm, none, []⟩ :: ns')).length
          = (canonForest ns').length + 1 := by
        rw [hcf]
        simp
      have hih := parseBF_go ns' hh.2 lines (i + 1) tail f hrest.symm (by omega)
        (by omega)
      constructor
      · intro htail
        rw [hstep, hih.1 htail]
      · intro rest htail
        rw [hstep, hih.2 rest htail]
        simp only [PRes.mk.injEq, List.nil_append]
        refine ⟨by simp, by simp, ?_⟩
        rw [hlen1]
        omega
    · subst hn
      obtain ⟨htne, httok⟩ := tokOK_spec nm ht
      have hcf : canonForest (⟨tDirective, some nm, some vl, []⟩ :: ns')
          = (nm ++ ' ' :: vl ++ [';']) :: canonForest ns' := by
        rw [show canonForest (⟨tDirective, some nm, some vl, []⟩ :: ns')
            = canonNode ⟨tDirective, some nm, some vl, []⟩ ++ canonForest ns' from rfl,
          canonNode_directive]
        rfl
      have hdrop1 : lines.drop i
          = (nm ++ ' ' :: vl ++ [';']) :: (canonForest ns' ++ tail) := by
        rw [hdrop, hcf]
        rfl
      have hlt : i < lines.length := by
        by_contra hge
        rw [List.drop_eq_nil_of_le (by omega)] at hdrop1
        exact List.noConfusion hdrop1
      have hcons := List.drop_eq_getElem_cons hlt
      rw [hdrop1] at hcons
      injection hcons with hline hrest
      have hstep := parseBF_leaf_step lines i f (nm ++ ' ' :: vl)
        ⟨tDirective, some nm, some vl, []⟩ hlt
        (by rw [List.get_eq_getElem, ← hline]) (by simp)
        (by rw [trim_tok_val nm vl ht hv]
            exact mkLeaf_directive nm vl ht hv)
      have hlen1 : (canonForest (⟨tDirective, some nm, some vl, []⟩ :: ns')).length
          = (canonForest ns').length + 1 := by
        rw [hcf]
        simp
      have hih := parseBF_go ns' hh.2 lines (i + 1) tail f hrest.symm (by omega)
        (by omega)
      constructor
      · intro htail
        rw [hstep, hih.1 htail]
      · intro rest htail
        rw [hstep, hih.2 rest htail]
        simp only [PRes.mk.injEq, List.nil_append]
        refine ⟨by simp, by simp, ?_⟩
        rw [hlen1]
        omega
    · subst hn
      obtain ⟨htne, httok⟩ := tokOK_spec nm ht
      have hcf : canonForest (⟨tBlock, some nm, none, cs⟩ :: ns')
          = (nm ++ [' ', '\x7b']) ::
            ((canonForest cs ++ [['\x7d']]) ++ canonForest ns') := by
        rw [show canonForest (⟨tBlock, some nm, none, cs⟩ :: ns')
            = canonNode ⟨tBlock, some nm, none, cs⟩ ++ canonForest ns' from rfl,
          canonNode_block]
        rfl
      have hdrop1 : lines.drop i = (nm ++ [' ', '\x7b']) ::
          (canonForest cs ++ ['\x7d'] :: (canonForest ns' ++ tail)) := by
        rw [hdrop, hcf]
        simp
      have hlt : i < lines.length := by
        by_contra hge
        rw [List.drop_eq_nil_of_le (by omega)] at hdrop1
        exact List.noConfusion hdrop1
      have hcons := List.drop_eq_getElem_cons hlt
      rw [hdrop1] at hcons
      injection hcons with hline hrest
      have hstep := parseBF_block_step lines i f nm
        (nm, fun cs2 => ⟨tBlock, some nm, none, cs2⟩) hlt
        (by rw [List.get_eq_getElem, ← hline]) htne (patMatch_block nm ht)
        (mkBlockHeader_tok nm ht)
      have hlen1 : (canonForest (⟨tBlock, some nm, none, cs⟩ :: ns')).length
          = (canonForest cs).length + (canonForest ns').length + 2 := by
        rw [hcf]
        simp
        omega
      have hl3 := congrArg List.length hdrop1
      rw [List.length_drop] at hl3
      simp only [List.length_cons, List.length_append] at hl3
      have hihc := parseBF_go cs hcs lines (i + 1)
        (['\x7d'] :: (canonForest ns' ++ tail)) f hrest.symm (by omega) (by omega)
      have hinner := hihc.2 (canonForest ns' ++ tail) rfl
      have hdropnext : lines.drop (i + 1 + (canonForest cs).length + 1)
          = canonForest ns' ++ tail := by
        have hd2 := drop_shift lines (i + 1) (canonForest cs ++ [['\x7d']])
          (canonForest ns' ++ tail) (by rw [← hrest]; simp)
        have hl4 : (canonForest cs ++ [['\x7d']]).length
            = (canonForest cs).length + 1 := by simp
        rw [hl4] at hd2
        rw [show i + 1 + (canonForest cs).length + 1
            = i + 1 + ((canonForest cs).length + 1) from by omega]
        exact hd2
      have hihr := parseBF_go ns' hh.2 lines (i + 1 + (canonForest cs).length + 1)
        tail f hdropnext (by omega) (by omega)
      constructor
      · intro htail
        rw [hstep]
        simp only [hinner]
        rw [hihr.1 htail]
        simp
      · intro rest htail
        rw [hstep]
        simp only [hinner]
        rw [hihr.2 rest htail]
        simp only [PRes.mk.injEq, List.nil_append]
        refine ⟨by simp, by simp, ?_⟩
        rw [hlen1]
        omega
    · subst hn
      obtain ⟨htne, httok⟩ := tokOK_spec nm ht
      have hcf : canonForest (⟨tNamedBlock, some nm, some vl, cs⟩ :: ns')
          = (nm ++ ' ' :: vl ++ [' ', '\x7b']) ::
            ((canonForest cs ++ [['\x7d']]) ++ canonForest ns') := by
        rw [show canonForest (⟨tNamedBlock, some nm, some vl, cs⟩ :: ns')
            = canonNode ⟨tNamedBlock, some nm, some vl, cs⟩ ++ canonForest ns' from rfl,
          canonNode_named]
        rfl
      have hdrop1 : lines.drop i = (nm ++ ' ' :: vl ++ [' ', '\x7b']) ::
          (canonForest cs ++ ['\x7d'] :: (canonForest ns' ++ tail)) := by
        rw [hdrop, hcf]
        simp
      have hlt : i < lines.length := by
        by_contra hge
        rw [List.drop_eq_nil_of_le (by omega)] at hdrop1
        exact List.noConfusion hdrop1
      have hcons := List.drop_eq_getElem_cons hlt
      rw [hdrop1] at hcons
      injection hcons with hline hrest
      have hstep := parseBF_block_step lines i f (nm ++ ' ' :: vl)
        (nm, fun cs2 => ⟨tNamedBlock, some nm, some vl, cs2⟩) hlt
        (by rw [List.get_eq_getElem, ← hline]) (by simp) hpm
        (mkBlockHeader_val nm vl ht hv)
      have hlen1 : (canonForest (⟨tNamedBlock, some nm, some vl, cs⟩ :: ns')).length
          = (canonForest cs).length + (canonForest ns').length + 2 := by
        rw [hcf]
        simp
        omega
      have hl3 := congrArg List.length hdrop1
      rw [List.length_drop] at hl3
      simp only [List.length_cons, List.length_append] at hl3
      have hihc := parseBF_go cs hcs lines (i + 1)
        (['\x7d'] :: (canonForest ns' ++ tail)) f hrest.symm (by omega) (by omega)
      have hinner := hihc.2 (canonForest ns' ++ tail) rfl
      have hdropnext : lines.drop (i + 1 + (canonForest cs).length + 1)
          = canonForest ns' ++ tail := by
        have hd2 := drop_shift lines (i + 1) (canonForest cs ++ [['\x7d']])
          (canonForest ns' ++ tail) (by rw [← hrest]; simp)
        have hl4 : (canonForest cs ++ [['\x7d']]).length
            = (canonForest cs).length + 1 := by simp
        rw [hl4] at hd2
        rw [show i + 1 + (canonForest cs).length + 1
            = i + 1 + ((canonForest cs).length + 1) from by omega]
        exact hd2
      have hihr := parseBF_go ns' hh.2 lines (i + 1 + (canonForest cs).length + 1)
        tail f hdropnext (by omega) (by omega)
      constructor
      · intro htail
        rw [hstep]
        simp only [hinner]
        rw [hihr.1 htail]
        simp
      · intro rest htail
        rw [hstep]
        simp only [hinner]
        rw [hihr.2 rest htail]
        simp only [PRes.mk.injEq, List.nil_append]
        refine ⟨by simp, by simp, ?_⟩
        rw [hlen1]
        omega
    · subst hn
      obtain ⟨htne, httok⟩ := tokOK_spec nm ht
      have hcf : canonForest (⟨tPatternBlock, some nm, some ('<' :: w ++ ['>']), cs⟩ :: ns')
          = (nm ++ ' ' :: ('<' :: w ++ ['>']) ++ [' ', '\x7b']) ::
            ((canonForest cs ++ [['\x7d']]) ++ canonForest ns') := by
        rw [show canonForest (⟨tPatternBlock, some nm, some ('<' :: w ++ ['>']), cs⟩ :: ns')
            = canonNode ⟨tPatternBlock, some nm, some ('<' :: w ++ ['>']), cs⟩ ++
              canonForest ns' from rfl,
          canonNode_pattern]
        rfl
      have hdrop1 : lines.drop i = (nm ++ ' ' :: ('<' :: w ++ ['>']) ++ [' ', '\x7b']) ::
          (canonForest cs ++ ['\x7d'] :: (canonForest ns' ++ tail)) := by
        rw [hdrop, hcf]
        simp
      have hlt : i < lines.length := by
        by_contra hge
        rw [List.drop_eq_nil_of_le (by omega)] at hdrop1
        exact List.noConfusion hdrop1
      have hcons := List.drop_eq_getElem_cons hlt
      rw [hdrop1] at hcons
      injection hcons with hline hrest
      have hpmc : patMatch (nm ++ ' ' :: ('<' :: w ++ ['>']) ++ [' ', '\x7b'])
          = some (nm, '<' :: (w ++ ['>'])) := by
        rw [show (nm ++ ' ' :: ('<' :: w ++ ['>']) ++ [' ', '\x7b'])
            = nm ++ ' ' :: (('<' :: w ++ ['>']) ++ [' ', '\x7b']) from by simp]
        exact patMatch_canon nm w ht hw
      have hnc : nm ++ ' ' :: ('<' :: w ++ ['>']) ++ [' ', '\x7b'] ≠ ['\x7d'] := by
        rw [show (nm ++ ' ' :: ('<' :: w ++ ['>']) ++ [' ', '\x7b'])
            = ((nm ++ ' ' :: ('<' :: w ++ ['>'])) ++ [' ']) ++ ['\x7b'] from by simp]
        exact ne_close _ '\x7b' (by decide)
      have hstep := parseBF_pat_step lines i f
        (nm ++ ' ' :: ('<' :: w ++ ['>']) ++ [' ', '\x7b'])
        (nm, '<' :: (w ++ ['>'])) hlt
        (by rw [List.get_eq_getElem, ← hline]) hnc hpmc
      have hlen1 : (canonForest
            (⟨tPatternBlock, some nm, some ('<' :: w ++ ['>']), cs⟩ :: ns')).length
          = (canonForest cs).length + (canonForest ns').length + 2 := by
        rw [hcf]
        simp
        omega
      have hl3 := congrArg List.length hdrop1
      rw [List.length_drop] at hl3
      simp only [List.length_cons, List.length_append] at hl3
      have hihc := parseBF_go cs hcs lines (i + 1)
        (['\x7d'] :: (canonForest ns' ++ tail)) f hrest.symm (by omega) (by omega)
      have hinner := hihc.2 (canonForest ns' ++ tail) rfl
      have hdropnext : lines.drop (i + 1 + (canonForest cs).length + 1)
          = canonForest ns' ++ tail := by
        have hd2 := drop_shift lines (i + 1) (canonForest cs ++ [['\x7d']])
          (canonForest ns' ++ tail) (by rw [← hrest]; simp)
        have hl4 : (canonForest cs ++ [['\x7d']]).length
            = (canonForest cs).length + 1 := by simp
        rw [hl4] at hd2
        rw [show i + 1 + (canonForest cs).length + 1
            = i + 1 + ((canonForest cs).length + 1) from by omega]
        exact hd2
      have hihr := parseBF_go ns' hh.2 lines (i + 1 + (canonForest cs).length + 1)
        tail f hdropnext (by omega) (by omega)
      constructor
      · intro htail
        rw [hstep]
        simp only [hinner]
        rw [hihr.1 htail]
        simp
      · intro rest htail
        rw [hstep]
        simp only [hinner]
        rw [hihr.2 rest htail]
        simp only [PRes.mk.injEq, List.nil_append]
        refine ⟨by simp, by simp, ?_⟩
        rw [hlen1]
        omega
  termination_by ns _ _ _ _ _ => sizeOf ns


/-- The quote-stripping of the leaf rule loses empty quoted tokens: the
directive `a "";` re-serializes to `a ;`, which re-parses as the flag
`a` — the round trip is not the identity on this parser output. -/
theorem c1_counterexample :
    parseJuniperConfig (astToConfig (parseJuniperConfig (("a \x22\x22;").data)))
      ≠ parseJuniperConfig (("a \x22\x22;").data) := by decide

/-- C1 — Round-trip, amended to canonical trees: for every root whose
children are well-formed (leaf and header names are nonempty
whitespace-free `#`-free tokens; directive and named-block values are
nonempty single-space-joined token sequences free of `"` and `#`;
named-block headers do not collide with the pattern-block rule; pattern
values are `<...>` with a nonempty `>`-free body), parsing the serialized
text gives back the very same tree.  The two documented lossy
normalizations are inlined in the well-formedness conditions: values are
required to be in the single-space normal form the parser itself
produces, and to contain no quote characters (the parser strips them, so
a tree holding quoted or empty-token values — which the parser can
produce — is not recovered, see the counterexample). -/
theorem c1_amended (cs : List JNode) (hcs : wfList cs = true) :
    parseJuniperConfig (astToConfig ⟨tRoot, none, none, cs⟩)
      = ⟨tRoot, none, none, cs⟩ := by
  have hpre := preprocess_canon cs hcs
  simp only [parseJuniperConfig, parseJuniperConfigD, hpre]
  have hgo := parseBF_go cs hcs (canonForest cs) 0 []
    (2 * (canonForest cs).length + 2) (by simp) (Nat.zero_le _) (by omega)
  rw [hgo.1 rfl]

theorem c1_amended_witness :
    wfList [⟨tBlock, some (("system").data), none,
        [⟨tDirective, some (("host-name").data), some (("router1").data), []⟩,
         ⟨tFlag, some (("autoupdate").data), none, []⟩]⟩,
      ⟨tNamedBlock, some (("unit").data), some (("0").data),
        [⟨tDirective, some (("family").data), some (("inet").data), []⟩]⟩,
      ⟨tPatternBlock, some (("interfaces").data), some (("<ge-*>").data), []⟩] = true ∧
    parseJuniperConfig (astToConfig ⟨tRoot, none, none,
      [⟨tBlock, some (("system").data), none,
        [⟨tDirective, some (("host-name").data), some (("router1").data), []⟩,
         ⟨tFlag, some (("autoupdate").data), none, []⟩]⟩,
      ⟨tNamedBlock, some (("unit").data), some (("0").data),
        [⟨tDirective, some (("family").data), some (("inet").data), []⟩]⟩,
      ⟨tPatternBlock, some (("interfaces").data), some (("<ge-*>").data), []⟩]⟩)
      = ⟨tRoot, none, none,
      [⟨tBlock, some (("system").data), none,
        [⟨tDirective, some (("host-name").data), some (("router1").data), []⟩,
         ⟨tFlag, some (("autoupdate").data), none, []⟩]⟩,
      ⟨tNamedBlock, some (("unit").data), some (("0").data),
        [⟨tDirective, some (("family").data), some (("inet").data), []⟩]⟩,
      ⟨tPatternBlock, some (("interfaces").data), some (("<ge-*>").data), []⟩]⟩ :=
  ⟨by decide, c1_amended _ (by decide)⟩

end Juniper
